import Mathlib

/-!
Verification development for the post-pack netlist loader and atom-netlist
manipulation core (VPR).  The definitions below are shallow embeddings of the
functions in vpr/SRC/base/atom_netlist_utils.c and of the packed-netlist reader
(read_netlist.c).  The AtomNetlist store mutators (remove_block, remove_net,
add_net) are not part of the given sources; they are modelled from the spec,
section 4.1, and are marked as such.  VTR_ASSERT and vpr_throw are modelled as
typed failure results wherever a claim depends on them; where they cannot fire
in the verified regime they become hypotheses of the theorems.
-/

namespace Vpr

/-- Logic values of vtr::LogicValue.  The source spelling UNKOWN is kept. -/
inductive LogicValue where
  | TRUE
  | FALSE
  | DONT_CARE
  | UNKOWN
deriving DecidableEq

/-- Block kinds of AtomBlockType. -/
inductive AtomBlockType where
  | INPAD
  | OUTPAD
  | COMBINATIONAL
  | SEQUENTIAL
deriving DecidableEq

/-- Pin kinds of AtomPinType. -/
inductive AtomPinType where
  | DRIVER
  | SINK
deriving DecidableEq

/-- The OPEN sentinel of VPR (value -1). -/
def OPEN : Int := -1

/-! ### Net hash table (read_netlist.c, cluster-net extractor) -/

/-- One s_hash entry: net name, compact index, occurrence count. -/
structure HashEnt where
  name : String
  index : Nat
  count : Nat
deriving DecidableEq

/-- Modelled from the spec: the hash-table utilities are external collaborators
(spec section 1).  Name-keyed table, entries kept in insertion order; inserting
an existing name bumps its count, a new name is appended with the supplied
index and count 1.  Returns the updated table and the entry for the name. -/
def insert_in_hash_table : List HashEnt → String → Nat → List HashEnt × HashEnt
  | [], nm, idx => ([⟨nm, idx, 1⟩], ⟨nm, idx, 1⟩)
  | e :: rest, nm, idx =>
    if e.name = nm then
      ({ e with count := e.count + 1 } :: rest, { e with count := e.count + 1 })
    else
      let r := insert_in_hash_table rest nm idx
      (e :: r.1, r.2)

/-- Translated from add_net_to_hash: the literal "open" is a keyword and is not
interned; otherwise insert the name, and on first occurrence advance the net
count.  Returns the updated table, the updated count and the net index. -/
def add_net_to_hash (nhash : List HashEnt) (net_name : String) (ncount : Nat) :
    List HashEnt × Nat × Int :=
  if net_name = "open" then (nhash, ncount, OPEN)
  else
    let r := insert_in_hash_table nhash net_name ncount
    if r.2.count = 1 then (r.1, ncount + 1, Int.ofNat r.2.index)
    else (r.1, ncount, Int.ofNat r.2.index)

/-! ### Cluster-net extractor (load_external_nets_and_cb) -/

/-- Pin class (t_class type). -/
inductive PinClass where
  | DRIVER
  | RECEIVER
deriving DecidableEq

/-- One external pin of a clustered block: its is_global_pin flag from the type
descriptor, its class, and the name of the atom net carried by the backing
pb_route entry (none when the entry is unused). -/
structure CPin where
  is_global_pin : Bool
  cls : PinClass
  netName : Option String
deriving DecidableEq

/-- A clustered block as seen by the extractor: its external pins in canonical
order (inputs, then outputs, then clocks). -/
structure CBlock where
  pins : List CPin
deriving DecidableEq

/-- One s_net produced by the extractor. -/
structure ExtNet where
  name : String
  num_sinks : Nat
  node_block : List Int
  node_block_pin : List Int
  is_global : Bool
deriving DecidableEq

/-- Failure modes of the extractor (vpr_throw calls and VTR_ASSERTs). -/
inductive LoadErr where
  | mixedGlobal (netName : String)
  | clockNotGlobal (netName : String)
  | tooManySinks (netName : String)
  | dupDriver
deriving DecidableEq

/-- Interning loop over one block in load_external_nets_and_cb: for each pin
whose backing pb_route entry carries a net, intern the net name; the per-pin
results are the block nets array entries (OPEN for unused pins). -/
def internBlockPins : List CPin → List HashEnt → Nat → List Int × List HashEnt × Nat
  | [], h, c => ([], h, c)
  | p :: rest, h, c =>
    match p.netName with
    | none =>
      let r := internBlockPins rest h c
      (OPEN :: r.1, r.2.1, r.2.2)
    | some nm =>
      let a := add_net_to_hash h nm c
      let r := internBlockPins rest a.1 a.2.1
      (a.2.2 :: r.1, r.2.1, r.2.2)

/-- Interning loop over all blocks. -/
def internAllBlocks : List CBlock → List HashEnt → Nat → List (List Int) × List HashEnt × Nat
  | [], h, c => ([], h, c)
  | b :: rest, h, c =>
    let r := internBlockPins b.pins h c
    let r2 := internAllBlocks rest r.2.1 r.2.2
    (r.1 :: r2.1, r2.2.1, r2.2.2)

/-- Translated from alloc_and_init_netlist_from_hash: one s_net per hash entry
with num_sinks = count - 1 and terminal arrays of size count, all OPEN. -/
def alloc_and_init_netlist_from_hash (h : List HashEnt) : List ExtNet :=
  h.map fun e => ⟨e.name, e.count - 1, List.replicate e.count OPEN, List.replicate e.count OPEN, false⟩

/-- One terminal of the fill loop of load_external_nets_and_cb: a RECEIVER pin
bumps the per-net counter, is bounds-checked against num_sinks, records the
terminal and overwrites is_global with its own flag; a DRIVER pin must be the
only driver (VTR_ASSERT modelled as dupDriver) and records terminal zero. -/
def fillTerminal (blkIdx pinIdx : Nat) (p : CPin) (netnum : Int)
    (st : List ExtNet × List Nat) : Except LoadErr (List ExtNet × List Nat) :=
  if netnum = OPEN then .ok st
  else
    let n := netnum.toNat
    match st.1[n]? with
    | none => .ok st
    | some net =>
      match p.cls with
      | .RECEIVER =>
        let c := st.2.getD n 0 + 1
        if net.num_sinks < c then .error (.tooManySinks net.name)
        else
          let net2 := { net with
            node_block := net.node_block.set c (Int.ofNat blkIdx)
            node_block_pin := net.node_block_pin.set c (Int.ofNat pinIdx)
            is_global := p.is_global_pin }
          .ok (st.1.set n net2, st.2.set n c)
      | .DRIVER =>
        if net.node_block.getD 0 OPEN ≠ OPEN then .error .dupDriver
        else
          let net2 := { net with
            node_block := net.node_block.set 0 (Int.ofNat blkIdx)
            node_block_pin := net.node_block_pin.set 0 (Int.ofNat pinIdx) }
          .ok (st.1.set n net2, st.2)

/-- Fill loop over the pins of one block (pin index threaded). -/
def fillBlockPins (blkIdx : Nat) :
    Nat → List CPin → List Int → List ExtNet × List Nat → Except LoadErr (List ExtNet × List Nat)
  | _, [], _, st => .ok st
  | _, _ :: _, [], st => .ok st
  | j, p :: ps, netnum :: rest, st =>
    match fillTerminal blkIdx j p netnum st with
    | .error e => .error e
    | .ok st2 => fillBlockPins blkIdx (j + 1) ps rest st2

/-- Fill loop over all blocks. -/
def fillAllBlocks :
    Nat → List CBlock → List (List Int) → List ExtNet × List Nat → Except LoadErr (List ExtNet × List Nat)
  | _, [], _, st => .ok st
  | _, _ :: _, [], st => .ok st
  | i, b :: bs, nets :: rest, st =>
    match fillBlockPins i 0 b.pins nets st with
    | .error e => .error e
    | .ok st2 => fillAllBlocks (i + 1) bs rest st2

/-- The is_global_pin flag the checker reads for terminal (bi, pj); out-of-range
lookups give false (never reached on extractor-produced terminals). -/
def pinGlobalAt (blocks : List CBlock) (bi pj : Int) : Bool :=
  match blocks[bi.toNat]? with
  | none => false
  | some b =>
    match b.pins[pj.toNat]? with
    | none => false
    | some p => p.is_global_pin

/-- Sink check of one net: every sink terminal (slots 1 .. num_sinks) must carry
the is_global flag of the net; a mismatch is a hard error naming the net. -/
def checkSinks (blocks : List CBlock) (net : ExtNet) : List Nat → Except LoadErr Unit
  | [] => .ok ()
  | j :: rest =>
    if pinGlobalAt blocks (net.node_block.getD j OPEN) (net.node_block_pin.getD j OPEN) = net.is_global
    then checkSinks blocks net rest
    else .error (.mixedGlobal net.name)

/-- Clock check of one net: a circuit clock name equal to the net name requires
the global flag (VTR_ASSERT modelled as clockNotGlobal). -/
def checkClocks (net : ExtNet) : List String → Except LoadErr Unit
  | [] => .ok ()
  | nm :: rest =>
    if nm = net.name then
      if net.is_global then checkClocks net rest else .error (.clockNotGlobal net.name)
    else checkClocks net rest

/-- Per-net error-check loop of load_external_nets_and_cb. -/
def checkNets (blocks : List CBlock) (clocks : List String) : List ExtNet → Except LoadErr Unit
  | [] => .ok ()
  | n :: rest =>
    match checkSinks blocks n ((List.range n.num_sinks).map (· + 1)) with
    | .error e => .error e
    | .ok _ =>
      match checkClocks n clocks with
      | .error e => .error e
      | .ok _ => checkNets blocks clocks rest

/-- Translated from load_external_nets_and_cb: intern the external nets of every
block, allocate the net list from the hash, fill the terminal arrays (setting
is_global from each RECEIVER pin), then run the global / clock checks.  The
type-capacity bookkeeping asserts and the cluster-side nets arrays kept past
the call are not modelled (no claim touches them). -/
def load_external_nets_and_cb (blocks : List CBlock) (circuit_clocks : List String) :
    Except LoadErr (List ExtNet) :=
  let r := internAllBlocks blocks [] 0
  let nets0 := alloc_and_init_netlist_from_hash r.2.1
  match fillAllBlocks 0 blocks r.1 (nets0, List.replicate nets0.length 0) with
  | .error e => .error e
  | .ok st =>
    match checkNets blocks circuit_clocks st.1 with
    | .error e => .error e
    | .ok _ => .ok st.1

/-! ### Transitive pb_route fill (load_interal_to_block_net_nums) -/

/-- Failure modes of the transitive fill: fuelOut is the embedding artifact for
general recursion (proved unreachable under acyclicity); assertFail covers the
two VTR_ASSERTs of load_atom_index_for_pb_pin. -/
inductive FillErr where
  | fuelOut
  | assertFail
deriving DecidableEq

/-- Translated from load_atom_index_for_pb_pin.  The pb_route array is split
into its immutable prev_pb_pin_id column (prevs) and its mutable atom_net_id
column (nets); the fill phase only ever writes the latter.  The source
recursion carries no fuel; the fuel argument here embeds general recursion. -/
def load_atom_index_for_pb_pin :
    Nat → List (Option Nat) → List (Option Nat) → Nat → Except FillErr (List (Option Nat))
  | 0, _, _, _ => .error .fuelOut
  | fuel + 1, prevs, nets, ipin =>
    match prevs.getD ipin none with
    | none => .error .assertFail
    | some driver =>
      if (nets.getD ipin none).isSome then .error .assertFail
      else
        match nets.getD driver none with
        | some v => .ok (nets.set ipin (some v))
        | none =>
          match load_atom_index_for_pb_pin fuel prevs nets driver with
          | .error e => .error e
          | .ok nets2 => .ok (nets2.set ipin (nets2.getD driver none))

/-- Loop body of load_interal_to_block_net_nums over the listed pin indices. -/
def fillRouteLoop (prevs : List (Option Nat)) :
    List (Option Nat) → List Nat → Except FillErr (List (Option Nat))
  | nets, [] => .ok nets
  | nets, i :: rest =>
    if (prevs.getD i none).isSome ∧ nets.getD i none = none then
      match load_atom_index_for_pb_pin nets.length prevs nets i with
      | .error e => .error e
      | .ok nets2 => fillRouteLoop prevs nets2 rest
    else fillRouteLoop prevs nets rest

/-- Translated from load_interal_to_block_net_nums (source spelling kept): for
every pb_route entry with an upstream driver and no net yet, resolve the net
transitively.  Each resolution is given fuel equal to the array size. -/
def load_interal_to_block_net_nums (prevs nets : List (Option Nat)) :
    Except FillErr (List (Option Nat)) :=
  fillRouteLoop prevs nets (List.range nets.length)

/-! ### Constant-generator marker (mark_constant_generators_rec) -/

mutual
/-- A pb tree node: a primitive leaf (blif_model set) with its pb_type name and
the pin_count_in_cluster indices of its input, clock and output pins, or an
internal node with its child pbs.  The named flag records whether the pb has a
name (unnamed child pbs are skipped by the marker). -/
inductive PbNode where
  | prim (named : Bool) (ptypeName : String)
      (inputPinIdxs clockPinIdxs outputPinIdxs : List Nat) : PbNode
  | inter (named : Bool) (children : PbForest) : PbNode
/-- A list of sibling pb nodes. -/
inductive PbForest where
  | nil : PbForest
  | cons : PbNode → PbForest → PbForest
end

/-- The named flag of a pb node. -/
def PbNode.namedOf : PbNode → Bool
  | .prim b _ _ _ _ => b
  | .inter b _ => b

mutual
/-- Translated from mark_constant_generators_rec.  The Boolean result is "no
VTR_ASSERT failed": a leaf that is not an inpad and has every input and clock
pin unconnected in pb_route is a constant generator, and each of its connected
output pins must have its net driver marked constant in the atom netlist
(net_driver and pin_is_constant are oracles for the atom netlist; an invalid
driver makes the assert fail). -/
def mark_constant_generators_rec (route : Nat → Option Nat) (net_driver : Nat → Option Nat)
    (pin_is_constant : Nat → Bool) : PbNode → Bool
  | .prim _ ptypeName inPins clkPins outPins =>
    if ptypeName = "inpad" then true
    else
      if (inPins.all fun p => (route p).isNone) && (clkPins.all fun p => (route p).isNone) then
        outPins.all fun p =>
          match route p with
          | none => true
          | some n =>
            match net_driver n with
            | none => false
            | some dp => pin_is_constant dp
      else true
  | .inter _ children => mark_constant_generators_forest route net_driver pin_is_constant children

/-- Recursion of the marker over the named children of an internal pb. -/
def mark_constant_generators_forest (route : Nat → Option Nat) (net_driver : Nat → Option Nat)
    (pin_is_constant : Nat → Bool) : PbForest → Bool
  | .nil => true
  | .cons c rest =>
    if c.namedOf then
      mark_constant_generators_rec route net_driver pin_is_constant c &&
        mark_constant_generators_forest route net_driver pin_is_constant rest
    else mark_constant_generators_forest route net_driver pin_is_constant rest
end

/-- A primitive leaf as collected by the marker traversal. -/
structure PbLeaf where
  ptypeName : String
  inputPinIdxs : List Nat
  clockPinIdxs : List Nat
  outputPinIdxs : List Nat
deriving DecidableEq

mutual
/-- The primitive leaves the marker traversal visits under a node. -/
def visitedLeaves : PbNode → List PbLeaf
  | .prim _ pt i c o => [⟨pt, i, c, o⟩]
  | .inter _ children => visitedLeavesForest children
/-- The primitive leaves the marker traversal visits in a forest. -/
def visitedLeavesForest : PbForest → List PbLeaf
  | .nil => []
  | .cons c rest =>
    if c.namedOf then visitedLeaves c ++ visitedLeavesForest rest
    else visitedLeavesForest rest
end

/-! ### Atom netlist store (spec section 4.1) -/

/-- A pin of the atom netlist: owning block, pin kind, and the net it is bound
to (none when unconnected).  IDs are list indices; removal tombstones the
entry, so indices are never reused. -/
structure AtomPin where
  block : Nat
  ptype : AtomPinType
  net : Option Nat
deriving DecidableEq

/-- A block of the atom netlist.  Ports are abstracted to their counts plus the
flattened per-direction pin id lists (all the source functions below access
ports only this way). -/
structure AtomBlock where
  name : String
  btype : AtomBlockType
  modelName : String
  truth_table : List (List LogicValue)
  num_input_ports : Nat
  num_output_ports : Nat
  inputPins : List Nat
  outputPins : List Nat
  clockPins : List Nat
deriving DecidableEq

/-- A net of the atom netlist. -/
structure AtomNet where
  name : String
  driver : Option Nat
  sinks : List Nat
  is_constant : Bool
deriving DecidableEq

/-- The atom netlist store: parallel ID-indexed arrays with tombstones. -/
structure AtomNetlist where
  blocks : List (Option AtomBlock)
  pins : List (Option AtomPin)
  nets : List (Option AtomNet)
deriving DecidableEq

/-- Lookup of a block; tombstoned and out-of-range ids give none. -/
def blockAt (nl : AtomNetlist) (b : Nat) : Option AtomBlock := nl.blocks.getD b none

/-- Lookup of a pin. -/
def pinAt (nl : AtomNetlist) (p : Nat) : Option AtomPin := nl.pins.getD p none

/-- Lookup of a net. -/
def netAt (nl : AtomNetlist) (n : Nat) : Option AtomNet := nl.nets.getD n none

/-- The net a pin is bound to (pin_net). -/
def pin_net (nl : AtomNetlist) (p : Nat) : Option Nat := (pinAt nl p).bind AtomPin.net

/-- The kind of a pin (pin_type). -/
def pin_type (nl : AtomNetlist) (p : Nat) : Option AtomPinType := (pinAt nl p).map AtomPin.ptype

/-- The kind of the block owning a pin (block_type of pin_block). -/
def pin_block_type (nl : AtomNetlist) (p : Nat) : Option AtomBlockType :=
  (pinAt nl p).bind fun pin => (blockAt nl pin.block).map AtomBlock.btype

/-- The kind of a block (block_type). -/
def block_type (nl : AtomNetlist) (b : Nat) : Option AtomBlockType :=
  (blockAt nl b).map AtomBlock.btype

/-- The input pins of a block (block_input_pins). -/
def block_input_pins (nl : AtomNetlist) (b : Nat) : List Nat :=
  ((blockAt nl b).map AtomBlock.inputPins).getD []

/-- The output pins of a block (block_output_pins). -/
def block_output_pins (nl : AtomNetlist) (b : Nat) : List Nat :=
  ((blockAt nl b).map AtomBlock.outputPins).getD []

/-- The driver pin of a net (net_driver). -/
def net_driver (nl : AtomNetlist) (n : Nat) : Option Nat := (netAt nl n).bind AtomNet.driver

/-- The sink pins of a net (net_sinks). -/
def net_sinks (nl : AtomNetlist) (n : Nat) : List Nat :=
  ((netAt nl n).map AtomNet.sinks).getD []

/-- The name of a net (net_name). -/
def net_name (nl : AtomNetlist) (n : Nat) : String :=
  ((netAt nl n).map AtomNet.name).getD ""

/-- The constant flag of a net (net_is_constant). -/
def net_is_constant (nl : AtomNetlist) (n : Nat) : Bool :=
  ((netAt nl n).map AtomNet.is_constant).getD false

/-- Modelled from the spec: detach a pin from its net on the net side: the
sinks list is compacted and the driver is set invalid if it was this pin
(spec 4.1, remove_block).  The pin record itself is untouched here. -/
def detachPin (nl : AtomNetlist) (p : Nat) : AtomNetlist :=
  match pinAt nl p with
  | none => nl
  | some pin =>
    match pin.net with
    | none => nl
    | some n =>
      match netAt nl n with
      | none => nl
      | some net =>
        let net2 := { net with
          driver := if net.driver = some p then none else net.driver
          sinks := net.sinks.filter fun q => q ≠ p }
        { nl with nets := nl.nets.set n (some net2) }

/-- Tombstone a pin id. -/
def tombstonePin (nl : AtomNetlist) (p : Nat) : AtomNetlist :=
  { nl with pins := nl.pins.set p none }

/-- Modelled from the spec: remove_block removes all the ports and pins of the
block, detaching each pin from its net, and tombstones the block id; it does
not remove the possibly dangling nets (spec 4.1). -/
def remove_block (nl : AtomNetlist) (b : Nat) : AtomNetlist :=
  match blockAt nl b with
  | none => nl
  | some blk =>
    let nl2 := (blk.inputPins ++ blk.outputPins ++ blk.clockPins).foldl
      (fun acc p => tombstonePin (detachPin acc p) p) nl
    { nl2 with blocks := nl2.blocks.set b none }

/-- Modelled from the spec: remove_net sets the net reference to invalid on
every pin that referenced the net and tombstones the net id (spec 4.1). -/
def remove_net (nl : AtomNetlist) (n : Nat) : AtomNetlist :=
  { nl with
    pins := nl.pins.map (Option.map fun pin =>
      if pin.net = some n then { pin with net := none } else pin)
    nets := nl.nets.set n none }

/-- Rebind one pin to a net id (no-op on tombstoned or out-of-range pins). -/
def setPinNet (nl : AtomNetlist) (p : Nat) (n : Nat) : AtomNetlist :=
  { nl with pins := nl.pins.set p ((nl.pins.getD p none).map fun pin => { pin with net := some n }) }

/-- Modelled from the spec: add_net appends a fresh net (IDs are never reused)
with the given driver and sinks and rebinds each supplied pin to it
(spec 4.1; the DuplicateName check is a fatal programming-error guard and is
not modelled). -/
def add_net (nl : AtomNetlist) (nm : String) (driver : Nat) (sinks : List Nat) : AtomNetlist :=
  let newId := nl.nets.length
  let nl2 := { nl with nets := nl.nets ++ [some ⟨nm, some driver, sinks, false⟩] }
  (driver :: sinks).foldl (fun acc p => setPinNet acc p newId) nl2

/-! ### Transformation passes (atom_netlist_utils.c) -/

/-- Connected pins of a pin list: the pin id is live and bound to a net
(the loop bodies of is_buffer_lut). -/
def countConnected (nl : AtomNetlist) (pins : List Nat) : Nat :=
  pins.countP fun p => (pin_net nl p).isSome

/-- Translated from is_buffer_lut.  The two VTR_ASSERTs on the truth-table
shape are modelled as none; all other paths return the source result. -/
def is_buffer_lut (nl : AtomNetlist) (blk : Nat) : Option Bool :=
  match blockAt nl blk with
  | none => none
  | some b =>
    if b.btype = .COMBINATIONAL then
      if b.modelName = "names" then
        if b.num_input_ports = 1 ∧ b.num_output_ports = 1 then
          if countConnected nl b.inputPins = 1 ∧ countConnected nl b.outputPins = 1 then
            match b.truth_table with
            | [[a, o]] =>
              if (a = .TRUE ∧ o = .TRUE) ∨ (a = .FALSE ∧ o = .FALSE) then some true
              else some false
            | _ => none
          else some false
        else some false
      else some false
    else some false

/-- Translated from remove_buffer_lut.  VTR_ASSERTs on the shape of the buffer
(single input and output pin, valid nets, driver of DRIVER kind, sink-count
arithmetic) are modelled as none; the PI-to-PO case returns the netlist
unchanged; otherwise the block and both nets are removed and the merged net is
added.  The two sanity asserts on the store state after remove_block are
postconditions of the spec-modelled store and are not re-checked here. -/
def remove_buffer_lut (nl : AtomNetlist) (blk : Nat) : Option AtomNetlist :=
  match blockAt nl blk with
  | none => none
  | some b =>
    match b.inputPins, b.outputPins with
    | [input_pin], [output_pin] =>
      match pin_net nl input_pin, pin_net nl output_pin with
      | some input_net, some output_net =>
        match net_driver nl input_net with
        | none => none
        | some new_driver =>
          if pin_type nl new_driver = some .DRIVER then
            let input_sinks := net_sinks nl input_net
            let output_sinks := net_sinks nl output_net
            let new_sinks := (input_sinks.filter fun q => q ≠ input_pin) ++ output_sinks
            if new_sinks.length + 1 = input_sinks.length + output_sinks.length then
              let driver_is_pi : Bool := pin_block_type nl new_driver = some .INPAD
              let po_in_sinks : Bool := new_sinks.any fun q => pin_block_type nl q = some .OUTPAD
              let new_net_name : Option String :=
                if !driver_is_pi && !po_in_sinks then some (net_name nl output_net)
                else if driver_is_pi && !po_in_sinks then some (net_name nl input_net)
                else if !driver_is_pi && po_in_sinks then some (net_name nl output_net)
                else none
              match new_net_name with
              | none => some nl
              | some nm =>
                some (add_net (remove_net (remove_net (remove_block nl blk) input_net) output_net)
                  nm new_driver new_sinks)
            else none
          else none
      | _, _ => none
    | _, _ => none

/-- Translated from is_removable_block: a block with no valid output net. -/
def is_removable_block (nl : AtomNetlist) (b : Nat) : Bool :=
  (block_output_pins nl b).all fun p => (pin_net nl p).isNone

/-- Translated from is_removable_input: an INPAD with no fanout. -/
def is_removable_input (nl : AtomNetlist) (b : Nat) : Bool :=
  match block_type nl b with
  | some .INPAD => is_removable_block nl b
  | _ => false

/-- Translated from is_removable_output: an OUTPAD with no fan-in. -/
def is_removable_output (nl : AtomNetlist) (b : Nat) : Bool :=
  match block_type nl b with
  | some .OUTPAD => (block_input_pins nl b).all fun p => (pin_net nl p).isNone
  | _ => false

/-- Translated from sweep_blocks: collect the removable non-I/O live blocks,
remove them, return how many. -/
def sweep_blocks (nl : AtomNetlist) : AtomNetlist × Nat :=
  let ids := (List.range nl.blocks.length).filter fun b =>
    match blockAt nl b with
    | none => false
    | some blk =>
      if blk.btype = .INPAD ∨ blk.btype = .OUTPAD then false
      else is_removable_block nl b
  (ids.foldl remove_block nl, ids.length)

/-- Translated from sweep_inputs. -/
def sweep_inputs (nl : AtomNetlist) : AtomNetlist × Nat :=
  let ids := (List.range nl.blocks.length).filter fun b =>
    (blockAt nl b).isSome && is_removable_input nl b
  (ids.foldl remove_block nl, ids.length)

/-- Translated from sweep_outputs. -/
def sweep_outputs (nl : AtomNetlist) : AtomNetlist × Nat :=
  let ids := (List.range nl.blocks.length).filter fun b =>
    (blockAt nl b).isSome && is_removable_output nl b
  (ids.foldl remove_block nl, ids.length)

/-- Translated from sweep_nets: remove the live nets with no driver or with no
sinks. -/
def sweep_nets (nl : AtomNetlist) : AtomNetlist × Nat :=
  let ids := (List.range nl.nets.length).filter fun n =>
    match netAt nl n with
    | none => false
    | some net => net.driver.isNone || net.sinks.isEmpty
  (ids.foldl remove_net nl, ids.length)

/-- Loop body of sweep_constant_primary_outputs: an OUTPAD all of whose input
pins are unconnected or on constant nets is removed in place. -/
def sweepConstOutStep (st : AtomNetlist × Nat) (b : Nat) : AtomNetlist × Nat :=
  match blockAt st.1 b with
  | none => st
  | some blk =>
    if blk.btype = .OUTPAD then
      if blk.inputPins.all fun p =>
          match pin_net st.1 p with
          | none => true
          | some n => net_is_constant st.1 n then
        (remove_block st.1 b, st.2 + 1)
      else st
    else st

/-- Translated from sweep_constant_primary_outputs (removal happens inside the
iteration, as in the source). -/
def sweep_constant_primary_outputs (nl : AtomNetlist) : AtomNetlist × Nat :=
  (List.range nl.blocks.length).foldl sweepConstOutStep (nl, 0)

/-- The per-pass removal counters of sweep_iterative. -/
structure SweepCounts where
  nets : Nat
  blocks : Nat
  inputs : Nat
  outputs : Nat
  consts : Nat
deriving DecidableEq

/-- All five counters zero. -/
def noCounts : SweepCounts := ⟨0, 0, 0, 0, 0⟩

/-- One pass of the sweep loop of sweep_iterative, in source order: inputs and
outputs (gated by should_sweep_ios), blocks, nets, constant primary outputs. -/
def sweep_pass (nl : AtomNetlist) (fio fnets fblk fconst : Bool) : AtomNetlist × SweepCounts :=
  let rio := if fio then
      let a := sweep_inputs nl
      let b := sweep_outputs a.1
      (b.1, a.2, b.2)
    else (nl, 0, 0)
  let rblk := if fblk then sweep_blocks rio.1 else (rio.1, 0)
  let rnets := if fnets then sweep_nets rblk.1 else (rblk.1, 0)
  let rconst := if fconst then sweep_constant_primary_outputs rnets.1 else (rnets.1, 0)
  (rconst.1, ⟨rnets.2, rblk.2, rio.2.1, rio.2.2, rconst.2⟩)

/-- The do-while loop of sweep_iterative.  The accumulation reproduces the
source exactly, including line 806 of atom_netlist_utils.c, which adds the
per-pass dangling-OUTPUT count into the dangling-inputs total.  The fuel
argument embeds the unbounded loop; none means fuel ran out. -/
def sweep_iterative_loop :
    Nat → AtomNetlist → Bool → Bool → Bool → Bool → SweepCounts →
      Option (AtomNetlist × SweepCounts)
  | 0, _, _, _, _, _, _ => none
  | fuel + 1, nl, fio, fnets, fblk, fconst, acc =>
    let r := sweep_pass nl fio fnets fblk fconst
    let acc2 : SweepCounts :=
      ⟨acc.nets + r.2.nets, acc.blocks + r.2.blocks,
       acc.inputs + r.2.outputs,
       acc.outputs + r.2.outputs, acc.consts + r.2.consts⟩
    if r.2 = noCounts then some (r.1, acc2)
    else sweep_iterative_loop fuel r.1 fio fnets fblk fconst acc2

/-- Translated from sweep_iterative: run passes until one removes nothing and
return the final netlist together with the total the source returns (the sum
of the five accumulated counters). -/
def sweep_iterative (fuel : Nat) (nl : AtomNetlist)
    (should_sweep_ios should_sweep_nets should_sweep_blocks
      should_sweep_constant_primary_outputs : Bool) : Option (AtomNetlist × Nat) :=
  match sweep_iterative_loop fuel nl should_sweep_ios should_sweep_nets should_sweep_blocks
      should_sweep_constant_primary_outputs noCounts with
  | none => none
  | some r => some (r.1, r.2.nets + r.2.blocks + r.2.inputs + r.2.outputs + r.2.consts)

/-! ### Truth tables and LUT masks (atom_netlist_utils.c) -/

/-- Translated from truth_table_encodes_on_set: an empty table encodes the
on-set (constant zero); otherwise the output (last) value of the first row
decides; an empty first row (VTR_ASSERT) or an unrecognised output value
(VPR_THROW) is a failure. -/
def truth_table_encodes_on_set (t : List (List LogicValue)) : Option Bool :=
  match t with
  | [] => some true
  | row :: _ =>
    match row.getLast? with
    | none => none
    | some .TRUE => some true
    | some .FALSE => some false
    | some _ => none

/-- The minterm number of a DONT_CARE-free cube: the integer whose bit i is
set exactly when cube entry i is TRUE (the summation loop at the end of
cube_to_minterms_recurr). -/
def cubeVal : List LogicValue → Nat
  | [] => 0
  | v :: rest => (if v = .TRUE then 1 else 0) + 2 * cubeVal rest

/-- Number of DONT_CARE entries of a cube (termination measure of the
dont-care expansion). -/
def dcCount (c : List LogicValue) : Nat := c.countP fun v => decide (v = .DONT_CARE)

/-- Translated from cube_to_minterms_recurr.  The source scans the cube once;
at every DONT_CARE position it recurses on the two refined cubes, and if the
scan saw no DONT_CARE the cube itself is emitted as a minterm.  The scan
position i and the seen-a-dont-care flag make the C loop explicit. -/
def cube_to_minterms_recurr (cube : List LogicValue) (i : Nat) (hasDc : Bool) : List Nat :=
  if h : i < cube.length then
    if cube.getD i .UNKOWN = .DONT_CARE then
      cube_to_minterms_recurr (cube.set i .TRUE) 0 false ++
        cube_to_minterms_recurr (cube.set i .FALSE) 0 false ++
          cube_to_minterms_recurr cube (i + 1) true
    else
      cube_to_minterms_recurr cube (i + 1) hasDc
  else
    if hasDc then [] else [cubeVal cube]
termination_by (dcCount cube, cube.length - i)
decreasing_by
  · refine Prod.Lex.left _ _ ?_
    rename_i hdc0
    have hdc : cube[i] = LogicValue.DONT_CARE := by
      have hi : cube.getD i .UNKOWN = cube[i] := by
        rw [List.getD_eq_getElem?_getD, List.getElem?_eq_getElem h]
        rfl
      rw [← hi]
      exact hdc0
    have hle := List.boole_getElem_le_countP (fun v => decide (v = LogicValue.DONT_CARE)) cube i h
    unfold dcCount
    rw [List.countP_set _ _ _ _ h]
    simp only [hdc] at hle ⊢
    simp at hle ⊢
    exact hle
  · refine Prod.Lex.left _ _ ?_
    rename_i hdc0
    have hdc : cube[i] = LogicValue.DONT_CARE := by
      have hi : cube.getD i .UNKOWN = cube[i] := by
        rw [List.getD_eq_getElem?_getD, List.getElem?_eq_getElem h]
        rfl
      rw [← hi]
      exact hdc0
    have hle := List.boole_getElem_le_countP (fun v => decide (v = LogicValue.DONT_CARE)) cube i h
    unfold dcCount
    rw [List.countP_set _ _ _ _ h]
    simp only [hdc] at hle ⊢
    simp at hle ⊢
    exact hle
  · refine Prod.Lex.right _ ?_
    omega
  · refine Prod.Lex.right _ ?_
    omega

/-- Translated from cube_to_minterms: the minterm numbers covered by a cube
(with duplicates, as in the source). -/
def cube_to_minterms (cube : List LogicValue) : List Nat :=
  cube_to_minterms_recurr cube 0 false

/-- Mark a list of minterm positions in a mask with a target value (the inner
marking loop of truth_table_to_lut_mask). -/
def markMinterms (mask : List LogicValue) (ms : List Nat) (tgt : LogicValue) : List LogicValue :=
  ms.foldl (fun acc m => acc.set m tgt) mask

/-- Translated from truth_table_to_lut_mask: infer the encoding from the first
row, start from the background value, and for every row mark the minterms of
its input cube (the row without its output value) with the target value. -/
def truth_table_to_lut_mask (t : List (List LogicValue)) (num_inputs : Nat) :
    Option (List LogicValue) :=
  match truth_table_encodes_on_set t with
  | none => none
  | some on_set =>
    let bg : LogicValue := if on_set then .FALSE else .TRUE
    let tgt : LogicValue := if on_set then .TRUE else .FALSE
    some (t.foldl (fun mask row => markMinterms mask (cube_to_minterms row.dropLast) tgt)
      (List.replicate (2 ^ num_inputs) bg))

/-- A minterm is covered by a cube when every TRUE entry forces a one bit and
every FALSE entry a zero bit of the minterm number (DONT_CARE entries are
free; cube entry i corresponds to bit i).  This is the specification-side
reading of "dont-cares expanded to both values". -/
def coversCube : List LogicValue → Nat → Bool
  | [], m => decide (m = 0)
  | v :: rest, m =>
    (if v = .TRUE then decide (m % 2 = 1) else true) &&
      (if v = .FALSE then decide (m % 2 = 0) else true) &&
        coversCube rest (m / 2)

/-- Decidable form of acyclicity of the prev_pb_pin_id graph: a rank function
that strictly decreases along every prev edge. -/
def rankDecreasing (prevs : List (Option Nat)) (rank : Nat → Nat) : Bool :=
  (List.range prevs.length).all fun j =>
    match prevs.getD j none with
    | none => true
    | some d => decide (rank d < rank j)

/-- Decidable bound on the rank function (an acyclic graph on n nodes admits
ranks below n). -/
def rankBounded (rank : Nat → Nat) (n : Nat) : Bool :=
  (List.range n).all fun j => decide (rank j < n)

/-- Decidable form of the pre-fill state ingestion establishes: an entry never
has both a prev pin and a net (top-level pins get nets directly and no prev,
internal pins get only a prev). -/
def prevNetDisjoint (prevs nets : List (Option Nat)) : Bool :=
  (List.range nets.length).all fun j =>
    !(prevs.getD j none).isSome || (nets.getD j none).isNone

/-! ### Concrete instances used by the closed theorems -/

/-- A netlist holding a single dangling INPAD (its output pin bound to no
net). -/
def c1Netlist : AtomNetlist :=
  ⟨[some ⟨"a", .INPAD, "input", [], 0, 1, [], [0], []⟩], [some ⟨0, .DRIVER, none⟩], []⟩

/-- The state of c1Netlist after the dangling INPAD has been swept. -/
def c1Swept : AtomNetlist := ⟨[none], [none], []⟩

/-- Two clustered blocks joined by net "n": the driver pin is a global pin,
the single sink pin is not. -/
def c2Blocks : List CBlock :=
  [⟨[⟨true, .DRIVER, some "n"⟩]⟩, ⟨[⟨false, .RECEIVER, some "n"⟩]⟩]

/-- A buffer LUT (block 1) whose input net "x" is driven by an INPAD and also
feeds an OUTPAD directly, while its output net "nb" has no OUTPAD sink. -/
def c3Netlist : AtomNetlist :=
  ⟨[some ⟨"x", .INPAD, "input", [], 0, 1, [], [0], []⟩,
    some ⟨"b", .COMBINATIONAL, "names", [[.TRUE, .TRUE]], 1, 1, [1], [2], []⟩,
    some ⟨"out:z", .OUTPAD, "output", [], 1, 0, [3], [], []⟩,
    some ⟨"c", .COMBINATIONAL, "names", [[.TRUE, .TRUE]], 1, 1, [4], [5], []⟩],
   [some ⟨0, .DRIVER, some 0⟩, some ⟨1, .SINK, some 0⟩, some ⟨1, .DRIVER, some 1⟩,
    some ⟨2, .SINK, some 0⟩, some ⟨3, .SINK, some 1⟩, some ⟨3, .DRIVER, none⟩],
   [some ⟨"x", some 0, [1, 3], false⟩, some ⟨"nb", some 2, [4], false⟩]⟩

/-- A buffer LUT (block 1) between a LUT driver and an OUTPAD sink; the
non-skip case of buffer absorption. -/
def c3wNetlist : AtomNetlist :=
  ⟨[some ⟨"g", .COMBINATIONAL, "names", [[.TRUE, .TRUE]], 1, 1, [], [0], []⟩,
    some ⟨"b", .COMBINATIONAL, "names", [[.TRUE, .TRUE]], 1, 1, [1], [2], []⟩,
    some ⟨"out:z", .OUTPAD, "output", [], 1, 0, [3], [], []⟩],
   [some ⟨0, .DRIVER, some 0⟩, some ⟨1, .SINK, some 0⟩, some ⟨1, .DRIVER, some 1⟩,
    some ⟨2, .SINK, some 1⟩],
   [some ⟨"n1", some 0, [1], false⟩, some ⟨"n2", some 2, [3], false⟩]⟩

/-- A buffer LUT (block 1) between the INPAD "x" and the OUTPAD "out:y"; the
skip case of buffer absorption. -/
def c4Netlist : AtomNetlist :=
  ⟨[some ⟨"x", .INPAD, "input", [], 0, 1, [], [0], []⟩,
    some ⟨"b", .COMBINATIONAL, "names", [[.TRUE, .TRUE]], 1, 1, [1], [2], []⟩,
    some ⟨"out:y", .OUTPAD, "output", [], 1, 0, [3], [], []⟩],
   [some ⟨0, .DRIVER, some 0⟩, some ⟨1, .SINK, some 0⟩, some ⟨1, .DRIVER, some 1⟩,
    some ⟨2, .SINK, some 1⟩],
   [some ⟨"x", some 0, [1], false⟩, some ⟨"y", some 2, [3], false⟩]⟩

/-- A netlist whose block 0 is a buffer LUT by every clause of the buffer
definition. -/
def c5Netlist : AtomNetlist :=
  ⟨[some ⟨"b", .COMBINATIONAL, "names", [[.TRUE, .TRUE]], 1, 1, [0], [1], []⟩],
   [some ⟨0, .SINK, some 0⟩, some ⟨0, .DRIVER, some 1⟩],
   [some ⟨"i", none, [0], false⟩, some ⟨"o", some 1, [], false⟩]⟩

end Vpr

/-! ## Theorems -/

namespace Vpr

/-! ### List helper lemmas -/

theorem getD_set_self {α : Type} (l : List α) (i : Nat) (x d : α) (h : i < l.length) :
    (l.set i x).getD i d = x := by
  simp [List.getD_eq_getElem?_getD, List.getElem?_set_self h]

theorem getD_set_ne {α : Type} (l : List α) (i j : Nat) (x d : α) (h : i ≠ j) :
    (l.set i x).getD j d = l.getD j d := by
  simp [List.getD_eq_getElem?_getD, List.getElem?_set_ne h]

theorem getD_some_lt {α : Type} (l : List (Option α)) (j : Nat) (x : α)
    (h : l.getD j none = some x) : j < l.length := by
  by_contra hc
  rw [List.getD_eq_getElem?_getD, List.getElem?_eq_none (Nat.le_of_not_lt hc)] at h
  simp at h

theorem isSome_getD_lt {α : Type} (l : List (Option α)) (j : Nat)
    (h : (l.getD j none).isSome) : j < l.length := by
  match hx : l.getD j none with
  | some x => exact getD_some_lt l j x hx
  | none => rw [hx] at h; simp at h

theorem getD_map_optmap {α β : Type} (l : List (Option α)) (g : Option α → Option β) (hg : g none = none)
    (i : Nat) : (l.map g).getD i none = g (l.getD i none) := by
  simp only [List.getD_eq_getElem?_getD, List.getElem?_map]
  match h : l[i]? with
  | some x => simp
  | none => simp [hg]

theorem getD_append_left {α : Type} (l l2 : List α) (i : Nat) (d : α) (h : i < l.length) :
    (l ++ l2).getD i d = l.getD i d := by
  simp [List.getD_eq_getElem?_getD, List.getElem?_append_left h]

theorem getD_concat_length {α : Type} (l : List α) (x d : α) :
    (l ++ [x]).getD l.length d = x := by
  simp [List.getD_eq_getElem?_getD, List.getElem?_concat_length]

/-! ### C10: the "open" keyword is never interned -/

/-- C10: a call of add_net_to_hash with the literal "open" returns the OPEN
sentinel and leaves both the net hash table and the net count unchanged, so a
disconnected pin token is never interned as an external net name. -/
theorem C10_add_net_to_hash_open (nhash : List HashEnt) (ncount : Nat) :
    add_net_to_hash nhash "open" ncount = (nhash, ncount, OPEN) := by
  simp [add_net_to_hash]

/-! ### C1: the removal total returned by sweep_iterative -/

/-- C1: on a netlist holding one dangling INPAD, with only the I/O sweep
enabled, the single pass that removes anything removes exactly one element
(the dangling input), yet sweep_iterative reports a total of zero removals:
line 806 of atom_netlist_utils.c adds the per-pass dangling-output count
instead of the per-pass dangling-input count into the inputs total, so the
returned total is not the sum of per-pass removals. -/
theorem C1_sweep_iterative_return_bug :
    sweep_pass c1Netlist true false false false = (c1Swept, ⟨0, 0, 1, 0, 0⟩) ∧
    blockAt c1Netlist 0 ≠ none ∧ blockAt c1Swept 0 = none ∧
    sweep_iterative 2 c1Netlist true false false false = some (c1Swept, 0) := by
  decide

/-! ### C5: the buffer LUT predicate -/

/-- C5: for every live block of the atom netlist, is_buffer_lut returns true
exactly when the block is combinational, its model is the generic "names"
model, it has one input port and one output port, exactly one connected input
pin and one connected output pin, and its truth table is the single row 1 1 or
the single row 0 0.  The function is Option-valued because the truth-table
shape VTR_ASSERTs can fail on blocks meeting only the earlier clauses. -/
theorem C5_is_buffer_lut_iff (nl : AtomNetlist) (blk : Nat) (b : AtomBlock)
    (hb : blockAt nl blk = some b) :
    is_buffer_lut nl blk = some true ↔
      b.btype = .COMBINATIONAL ∧ b.modelName = "names" ∧
      b.num_input_ports = 1 ∧ b.num_output_ports = 1 ∧
      countConnected nl b.inputPins = 1 ∧ countConnected nl b.outputPins = 1 ∧
      (b.truth_table = [[.TRUE, .TRUE]] ∨ b.truth_table = [[.FALSE, .FALSE]]) := by
  simp only [is_buffer_lut, hb]
  constructor
  · intro h
    by_cases h1 : b.btype = .COMBINATIONAL
    case neg => rw [if_neg h1] at h; simp at h
    by_cases h2 : b.modelName = "names"
    case neg => rw [if_pos h1, if_neg h2] at h; simp at h
    by_cases h3 : b.num_input_ports = 1 ∧ b.num_output_ports = 1
    case neg => rw [if_pos h1, if_pos h2, if_neg h3] at h; simp at h
    by_cases h4 : countConnected nl b.inputPins = 1 ∧ countConnected nl b.outputPins = 1
    case neg =>
      rw [if_pos h1, if_pos h2, if_pos h3, if_neg h4] at h
      simp at h
    rw [if_pos h1, if_pos h2, if_pos h3, if_pos h4] at h
    refine ⟨h1, h2, h3.1, h3.2, h4.1, h4.2, ?_⟩
    generalize htt : b.truth_table = T at h
    rcases T with _ | ⟨r, tl⟩
    · simp at h
    · rcases tl with _ | ⟨r2, tl2⟩
      · rcases r with _ | ⟨a, r2⟩
        · simp at h
        · rcases r2 with _ | ⟨o, r3⟩
          · simp at h
          · rcases r3 with _ | ⟨z, r4⟩
            · change (if a = LogicValue.TRUE ∧ o = LogicValue.TRUE ∨
                  a = LogicValue.FALSE ∧ o = LogicValue.FALSE then some true
                else some false) = some true at h
              split_ifs at h with h5
              · rcases h5 with ⟨ha, ho⟩ | ⟨ha, ho⟩
                · subst ha; subst ho; left; rfl
                · subst ha; subst ho; right; rfl
              · simp at h
            · simp at h
      · simp at h
  · rintro ⟨h1, h2, h3, h4, h5, h6, h7⟩
    rw [if_pos h1, if_pos h2, if_pos ⟨h3, h4⟩, if_pos ⟨h5, h6⟩]
    rcases h7 with h7 | h7 <;> rw [h7] <;> simp

/-- C5 witness: the concrete buffer LUT of c5Netlist instantiates the
equivalence. -/
theorem C5_is_buffer_lut_iff_witness :
    is_buffer_lut c5Netlist 0 = some true ↔
      AtomBlockType.COMBINATIONAL = AtomBlockType.COMBINATIONAL ∧ "names" = "names" ∧
      1 = 1 ∧ 1 = 1 ∧
      countConnected c5Netlist [0] = 1 ∧ countConnected c5Netlist [1] = 1 ∧
      ([[LogicValue.TRUE, LogicValue.TRUE]] = [[LogicValue.TRUE, LogicValue.TRUE]] ∨
        [[LogicValue.TRUE, LogicValue.TRUE]] = [[LogicValue.FALSE, LogicValue.FALSE]]) :=
  C5_is_buffer_lut_iff c5Netlist 0
    ⟨"b", .COMBINATIONAL, "names", [[.TRUE, .TRUE]], 1, 1, [0], [1], []⟩ (by decide)

/-! ### Helper lemmas on counts and filters -/

theorem filter_ne_length_of_count_one {α : Type} [DecidableEq α] (l : List α) (a : α)
    (h : l.count a = 1) : (l.filter fun q => q ≠ a).length + 1 = l.length := by
  induction l with
  | nil => simp at h
  | cons x t ih =>
    by_cases hx : x = a
    · subst hx
      rw [List.count_cons_self] at h
      have ht : t.count x = 0 := by omega
      have hnot : x ∉ t := List.count_eq_zero.mp ht
      have hfeq : (t.filter fun q => q ≠ x) = t := by
        apply List.filter_eq_self.mpr
        intro b hb
        have hbx : ¬ b = x := fun hbx => hnot (hbx ▸ hb)
        simp [hbx]
      rw [List.filter_cons]
      simp only [hfeq]
      simp
    · rw [List.count_cons_of_ne (fun hax => hx hax.symm)] at h
      have := ih h
      rw [List.filter_cons]
      have hxd : (decide (x ≠ a)) = true := by simp [hx]
      rw [hxd]
      simp only [if_true, List.length_cons]
      omega

/-! ### C4: the PI-to-PO buffer is not absorbed -/

/-- C4: a buffer LUT whose input net is driven by a pin on an INPAD block and
whose output net has a sink pin on an OUTPAD block is skipped by
remove_buffer_lut: the call returns the netlist unchanged.  The hypotheses
state the shape of a well-formed buffer (single input and output pin, both
connected, input net driven by a DRIVER pin, the buffer input pin appearing
once among the input-net sinks) under which the source VTR_ASSERTs hold. -/
theorem C4_remove_buffer_lut_pi_po_skip
    (nl : AtomNetlist) (blk : Nat) (b : AtomBlock)
    (input_pin output_pin input_net output_net new_driver : Nat)
    (hb : blockAt nl blk = some b)
    (hip : b.inputPins = [input_pin]) (hop : b.outputPins = [output_pin])
    (hin : pin_net nl input_pin = some input_net)
    (hon : pin_net nl output_pin = some output_net)
    (hdrv : net_driver nl input_net = some new_driver)
    (hdt : pin_type nl new_driver = some .DRIVER)
    (hcnt : (net_sinks nl input_net).count input_pin = 1)
    (hpi : pin_block_type nl new_driver = some .INPAD)
    (hpo : ∃ q ∈ net_sinks nl output_net, pin_block_type nl q = some .OUTPAD) :
    remove_buffer_lut nl blk = some nl := by
  have hlen : ((net_sinks nl input_net).filter fun q => q ≠ input_pin).length + 1 =
      (net_sinks nl input_net).length := filter_ne_length_of_count_one _ _ hcnt
  have hguard : (((net_sinks nl input_net).filter fun q => q ≠ input_pin) ++
      net_sinks nl output_net).length + 1 =
      (net_sinks nl input_net).length + (net_sinks nl output_net).length := by
    rw [List.length_append]
    omega
  have hcon : ¬ ∀ x ∈ net_sinks nl output_net, ¬ pin_block_type nl x = some .OUTPAD := by
    rcases hpo with ⟨q, hq1, hq2⟩
    exact fun hall => hall q hq1 hq2
  simp only [remove_buffer_lut, hb, hip, hop, hin, hon, hdrv]
  rw [if_pos hdt, if_pos hguard]
  simp [hpi, hcon]

/-- C4 witness: the concrete INPAD-buffer-OUTPAD netlist c4Netlist is returned
unchanged. -/
theorem C4_remove_buffer_lut_pi_po_skip_witness :
    remove_buffer_lut c4Netlist 1 = some c4Netlist :=
  C4_remove_buffer_lut_pi_po_skip c4Netlist 1
    ⟨"b", .COMBINATIONAL, "names", [[.TRUE, .TRUE]], 1, 1, [1], [2], []⟩
    1 2 0 1 0 (by decide) (by decide) (by decide) (by decide) (by decide) (by decide)
    (by decide) (by decide) (by decide) (by decide)

/-! ### C2: the global-pin consistency check -/

theorem checkSinks_ok (blocks : List CBlock) (net : ExtNet) (l : List Nat)
    (h : checkSinks blocks net l = .ok ()) :
    ∀ j ∈ l, pinGlobalAt blocks (net.node_block.getD j OPEN)
      (net.node_block_pin.getD j OPEN) = net.is_global := by
  induction l with
  | nil => intro j hj; simp at hj
  | cons a t ih =>
    intro j hj
    unfold checkSinks at h
    split_ifs at h with hcond
    rcases List.mem_cons.mp hj with hj | hj
    · subst hj; exact hcond
    · exact ih h j hj

theorem checkClocks_ok (net : ExtNet) (l : List String)
    (h : checkClocks net l = .ok ()) :
    ∀ nm ∈ l, nm = net.name → net.is_global = true := by
  induction l with
  | nil => intro nm hnm; simp at hnm
  | cons a t ih =>
    intro nm hnm heq
    unfold checkClocks at h
    split_ifs at h with hcond1 hcond2
    · exact hcond2
    · rcases List.mem_cons.mp hnm with hnm | hnm
      · exact absurd (hnm ▸ heq) hcond1
      · exact ih h nm hnm heq

theorem checkNets_ok (blocks : List CBlock) (clocks : List String) (l : List ExtNet)
    (h : checkNets blocks clocks l = .ok ()) :
    ∀ n ∈ l, checkSinks blocks n ((List.range n.num_sinks).map (· + 1)) = .ok () ∧
      checkClocks n clocks = .ok () := by
  induction l with
  | nil => intro n hn; simp at hn
  | cons a t ih =>
    intro n hn
    unfold checkNets at h
    rcases hs : checkSinks blocks a ((List.range a.num_sinks).map (· + 1)) with e | u
    · rw [hs] at h; exact absurd h (by simp)
    rcases hc : checkClocks a clocks with e | u2
    · rw [hs, hc] at h; exact absurd h (by simp)
    rw [hs, hc] at h
    rcases List.mem_cons.mp hn with hn | hn
    · subst hn
      cases u; cases u2
      exact ⟨hs, hc⟩
    · exact ih h n hn

/-- C2 counterexample: a net whose driver pin is a global pin and whose single
sink pin is not.  The source only compares the sink terminals (slots
1..num_sinks) against the is_global flag recorded from the last sink, so the
ingest succeeds, contradicting the claim that connecting one net to both a
global and a non-global pin is a hard error. -/
theorem C2_global_check_counterexample :
    load_external_nets_and_cb c2Blocks [] = .ok [⟨"n", 1, [0, 1], [0, 0], false⟩] ∧
    pinGlobalAt c2Blocks 0 0 = true ∧ pinGlobalAt c2Blocks 1 0 = false :=
  ⟨by rfl, by rfl, by rfl⟩

/-- C2 amended: when load_external_nets_and_cb succeeds, every external net
has the is_global_pin flag of each of its sink terminals (slots
1..num_sinks) equal to the net is_global flag (the driver terminal is not
checked), and every name in the circuit_clocks list that coincides with the
name of an external net belongs to a net whose global flag is set (names
matching no net are not checked). -/
theorem C2_global_check_amended (blocks : List CBlock) (circuit_clocks : List String)
    (nets : List ExtNet)
    (h : load_external_nets_and_cb blocks circuit_clocks = .ok nets) :
    (∀ n ∈ nets, ∀ j, 1 ≤ j → j ≤ n.num_sinks →
      pinGlobalAt blocks (n.node_block.getD j OPEN) (n.node_block_pin.getD j OPEN) =
        n.is_global) ∧
    (∀ nm ∈ circuit_clocks, ∀ n ∈ nets, nm = n.name → n.is_global = true) := by
  simp only [load_external_nets_and_cb] at h
  rcases hf : fillAllBlocks 0 blocks (internAllBlocks blocks [] 0).1
      (alloc_and_init_netlist_from_hash (internAllBlocks blocks [] 0).2.1,
        List.replicate (alloc_and_init_netlist_from_hash (internAllBlocks blocks [] 0).2.1).length 0)
      with e | st
  · rw [hf] at h; exact Except.noConfusion h
  rw [hf] at h
  change (match checkNets blocks circuit_clocks st.1 with
    | Except.error e => (Except.error e : Except LoadErr (List ExtNet))
    | Except.ok _ => Except.ok st.1) = Except.ok nets at h
  rcases hc : checkNets blocks circuit_clocks st.1 with e | u
  · rw [hc] at h; exact Except.noConfusion h
  rw [hc] at h
  change (Except.ok st.1 : Except LoadErr (List ExtNet)) = Except.ok nets at h
  simp only [Except.ok.injEq] at h
  subst h
  cases u
  have hok := checkNets_ok blocks circuit_clocks st.1 hc
  constructor
  · intro n hn j hj1 hj2
    have := checkSinks_ok blocks n _ (hok n hn).1 j
    apply this
    simp only [List.mem_map, List.mem_range]
    exact ⟨j - 1, by omega, by omega⟩
  · intro nm hnm n hn heq
    exact checkClocks_ok n circuit_clocks (hok n hn).2 nm hnm heq

/-- C2 amended witness: the sink of the concrete net of c2Blocks agrees with
the recorded is_global flag after a successful load. -/
theorem C2_global_check_amended_witness :
    (∀ n ∈ [(⟨"n", 1, [0, 1], [0, 0], false⟩ : ExtNet)], ∀ j, 1 ≤ j → j ≤ n.num_sinks →
      pinGlobalAt c2Blocks (n.node_block.getD j OPEN) (n.node_block_pin.getD j OPEN) =
        n.is_global) ∧
    (∀ nm ∈ ([] : List String), ∀ n ∈ [(⟨"n", 1, [0, 1], [0, 0], false⟩ : ExtNet)],
      nm = n.name → n.is_global = true) :=
  C2_global_check_amended c2Blocks [] [⟨"n", 1, [0, 1], [0, 0], false⟩] (by rfl)

/-! ### C8: sweep_iterative is idempotent -/

theorem sweep_inputs_fix (nl : AtomNetlist) (h : (sweep_inputs nl).2 = 0) :
    (sweep_inputs nl).1 = nl := by
  simp only [sweep_inputs] at h ⊢
  rw [List.length_eq_zero.mp h]
  rfl

theorem sweep_outputs_fix (nl : AtomNetlist) (h : (sweep_outputs nl).2 = 0) :
    (sweep_outputs nl).1 = nl := by
  simp only [sweep_outputs] at h ⊢
  rw [List.length_eq_zero.mp h]
  rfl

theorem sweep_blocks_fix (nl : AtomNetlist) (h : (sweep_blocks nl).2 = 0) :
    (sweep_blocks nl).1 = nl := by
  simp only [sweep_blocks] at h ⊢
  rw [List.length_eq_zero.mp h]
  rfl

theorem sweep_nets_fix (nl : AtomNetlist) (h : (sweep_nets nl).2 = 0) :
    (sweep_nets nl).1 = nl := by
  simp only [sweep_nets] at h ⊢
  rw [List.length_eq_zero.mp h]
  rfl

theorem sweepConstOutStep_cases (st : AtomNetlist × Nat) (b : Nat) :
    sweepConstOutStep st b = st ∨ (sweepConstOutStep st b).2 = st.2 + 1 := by
  unfold sweepConstOutStep
  split
  · exact Or.inl rfl
  · split
    · split
      · exact Or.inr rfl
      · exact Or.inl rfl
    · exact Or.inl rfl

theorem sweepConstOutStep_snd_le (st : AtomNetlist × Nat) (b : Nat) :
    st.2 ≤ (sweepConstOutStep st b).2 := by
  rcases sweepConstOutStep_cases st b with h | h
  · rw [h]
  · omega

theorem foldl_sweepConstOut_snd_le (l : List Nat) (st : AtomNetlist × Nat) :
    st.2 ≤ (l.foldl sweepConstOutStep st).2 := by
  induction l generalizing st with
  | nil => exact Nat.le_refl _
  | cons a t ih =>
    exact Nat.le_trans (sweepConstOutStep_snd_le st a) (ih (sweepConstOutStep st a))

theorem sweepConstOutStep_fix (st : AtomNetlist × Nat) (b : Nat)
    (h : (sweepConstOutStep st b).2 = st.2) : sweepConstOutStep st b = st := by
  rcases sweepConstOutStep_cases st b with h2 | h2
  · exact h2
  · omega

theorem foldl_sweepConstOut_fix (l : List Nat) (st : AtomNetlist × Nat)
    (h : (l.foldl sweepConstOutStep st).2 = st.2) : l.foldl sweepConstOutStep st = st := by
  induction l generalizing st with
  | nil => rfl
  | cons a t ih =>
    simp only [List.foldl_cons] at h ⊢
    have hle1 := sweepConstOutStep_snd_le st a
    have hle2 := foldl_sweepConstOut_snd_le t (sweepConstOutStep st a)
    have hstep : (sweepConstOutStep st a).2 = st.2 := by omega
    rw [sweepConstOutStep_fix st a hstep] at h ⊢
    exact ih st h

theorem sweep_constant_primary_outputs_fix (nl : AtomNetlist)
    (h : (sweep_constant_primary_outputs nl).2 = 0) :
    (sweep_constant_primary_outputs nl).1 = nl := by
  unfold sweep_constant_primary_outputs at h ⊢
  have := foldl_sweepConstOut_fix (List.range nl.blocks.length) (nl, 0) h
  rw [this]

theorem condStage_fix (flag : Bool) (f : AtomNetlist → AtomNetlist × Nat)
    (hf : ∀ m, (f m).2 = 0 → (f m).1 = m) (m : AtomNetlist)
    (h : (if flag then f m else (m, 0)).2 = 0) :
    (if flag then f m else (m, 0)).1 = m := by
  cases flag
  · rfl
  · simp only [if_true] at h ⊢
    exact hf m h

theorem condIos_fix (fio : Bool) (m : AtomNetlist)
    (h1 : (if fio then
        ((sweep_outputs (sweep_inputs m).1).1, (sweep_inputs m).2,
          (sweep_outputs (sweep_inputs m).1).2)
      else (m, 0, 0)).2.1 = 0)
    (h2 : (if fio then
        ((sweep_outputs (sweep_inputs m).1).1, (sweep_inputs m).2,
          (sweep_outputs (sweep_inputs m).1).2)
      else (m, 0, 0)).2.2 = 0) :
    (if fio then
        ((sweep_outputs (sweep_inputs m).1).1, (sweep_inputs m).2,
          (sweep_outputs (sweep_inputs m).1).2)
      else (m, 0, 0)).1 = m := by
  cases fio
  · rfl
  · simp only [if_true] at h1 h2 ⊢
    have e1 := sweep_inputs_fix m h1
    rw [e1] at h2 ⊢
    exact sweep_outputs_fix m h2

theorem sweep_pass_fix (nl : AtomNetlist) (fio fnets fblk fconst : Bool)
    (h : (sweep_pass nl fio fnets fblk fconst).2 = noCounts) :
    (sweep_pass nl fio fnets fblk fconst).1 = nl := by
  simp only [sweep_pass, noCounts, SweepCounts.mk.injEq] at h ⊢
  obtain ⟨hn, hb, hi, ho, hc⟩ := h
  have eio := condIos_fix fio nl hi ho
  rw [eio] at hb hn hc ⊢
  have eblk := condStage_fix fblk sweep_blocks sweep_blocks_fix nl hb
  rw [eblk] at hn hc ⊢
  have enets := condStage_fix fnets sweep_nets sweep_nets_fix nl hn
  rw [enets] at hc ⊢
  exact condStage_fix fconst sweep_constant_primary_outputs
    sweep_constant_primary_outputs_fix nl hc

theorem sweep_loop_fixpoint (fuel : Nat) :
    ∀ (nl : AtomNetlist) (fio fnets fblk fconst : Bool) (acc : SweepCounts)
      (st : AtomNetlist) (accF : SweepCounts),
      sweep_iterative_loop fuel nl fio fnets fblk fconst acc = some (st, accF) →
      sweep_pass st fio fnets fblk fconst = (st, noCounts) := by
  induction fuel with
  | zero =>
    intro nl fio fnets fblk fconst acc st accF h
    simp [sweep_iterative_loop] at h
  | succ f ih =>
    intro nl fio fnets fblk fconst acc st accF h
    simp only [sweep_iterative_loop] at h
    by_cases hz : (sweep_pass nl fio fnets fblk fconst).2 = noCounts
    · rw [if_pos hz] at h
      simp only [Option.some.injEq, Prod.mk.injEq] at h
      obtain ⟨hst, _⟩ := h
      have hfix := sweep_pass_fix nl fio fnets fblk fconst hz
      have hstnl : st = nl := by rw [← hst, hfix]
      subst hstnl
      rw [Prod.ext_iff]
      exact ⟨hfix, hz⟩
    · rw [if_neg hz] at h
      exact ih _ _ _ _ _ _ _ _ h

/-- C8: sweep_iterative is idempotent.  If a run of sweep_iterative (with any
sufficient fuel for its unbounded do-while loop) finishes with netlist state
st, then a second run on st returns the same state with removal total 0, and
its single pass removes zero elements of every category. -/
theorem C8_sweep_iterative_idempotent (f1 f2 : Nat) (nl st : AtomNetlist) (t : Nat)
    (fio fnets fblk fconst : Bool)
    (h : sweep_iterative f1 nl fio fnets fblk fconst = some (st, t)) (hf2 : 0 < f2) :
    sweep_iterative f2 st fio fnets fblk fconst = some (st, 0) ∧
    sweep_pass st fio fnets fblk fconst = (st, noCounts) := by
  unfold sweep_iterative at h
  rcases hl : sweep_iterative_loop f1 nl fio fnets fblk fconst noCounts with _ | r
  · rw [hl] at h
    exact absurd h (by simp)
  rw [hl] at h
  simp only [Option.some.injEq, Prod.mk.injEq] at h
  obtain ⟨hst, _⟩ := h
  have hpass := sweep_loop_fixpoint f1 nl fio fnets fblk fconst noCounts r.1 r.2 (by rw [hl])
  rw [hst] at hpass
  refine ⟨?_, hpass⟩
  rcases f2 with _ | g
  · omega
  unfold sweep_iterative
  simp only [sweep_iterative_loop, hpass]
  simp [noCounts]

/-- C8 witness: sweeping the already-swept one-INPAD netlist again returns the
same state and removes nothing. -/
theorem C8_sweep_iterative_idempotent_witness :
    sweep_iterative 1 c1Swept true false false false = some (c1Swept, 0) ∧
    sweep_pass c1Swept true false false false = (c1Swept, noCounts) :=
  C8_sweep_iterative_idempotent 2 1 c1Netlist c1Swept 0 true false false false
    (by decide) (by decide)

/-! ### C6: the transitive pb_route fill -/

theorem load_pb_pin_noprev (f : Nat) (prevs nets : List (Option Nat)) (i : Nat)
    (hp : prevs.getD i none = none) :
    load_atom_index_for_pb_pin (f + 1) prevs nets i = .error .assertFail := by
  simp only [load_atom_index_for_pb_pin]
  rw [hp]

theorem load_pb_pin_busy (f : Nat) (prevs nets : List (Option Nat)) (i driver v : Nat)
    (hp : prevs.getD i none = some driver) (hni : nets.getD i none = some v) :
    load_atom_index_for_pb_pin (f + 1) prevs nets i = .error .assertFail := by
  simp only [load_atom_index_for_pb_pin]
  rw [hp, hni]
  rfl

theorem load_pb_pin_step (f : Nat) (prevs nets : List (Option Nat)) (i driver : Nat)
    (hp : prevs.getD i none = some driver) (hni : nets.getD i none = none) :
    load_atom_index_for_pb_pin (f + 1) prevs nets i =
      match nets.getD driver none with
      | some v => .ok (nets.set i (some v))
      | none =>
        match load_atom_index_for_pb_pin f prevs nets driver with
        | .error e => .error e
        | .ok nets3 => .ok (nets3.set i (nets3.getD driver none)) := by
  simp only [load_atom_index_for_pb_pin]
  rw [hp, hni]
  rfl

theorem load_pb_pin_ok_spec (rank : Nat → Nat) (prevs : List (Option Nat))
    (hrank : ∀ j d, prevs.getD j none = some d → rank d < rank j) :
    ∀ (f : Nat) (nets : List (Option Nat)) (i : Nat) (nets2 : List (Option Nat)),
      prevs.length = nets.length →
      load_atom_index_for_pb_pin f prevs nets i = .ok nets2 →
      nets2.length = nets.length ∧
      (∀ j, (nets.getD j none).isSome → nets2.getD j none = nets.getD j none) ∧
      (nets2.getD i none).isSome ∧
      (∀ j, nets2.getD j none ≠ nets.getD j none →
        rank j ≤ rank i ∧ (nets2.getD j none).isSome ∧
        ∃ dj, prevs.getD j none = some dj ∧ nets2.getD j none = nets2.getD dj none) := by
  intro f
  induction f with
  | zero =>
    intro nets i nets2 hlen h
    exact absurd h (by simp [load_atom_index_for_pb_pin])
  | succ f ih =>
    intro nets i nets2 hlen h
    rcases hp : prevs.getD i none with _ | driver
    · rw [load_pb_pin_noprev f prevs nets i hp] at h
      exact absurd h (by simp)
    rcases hni : nets.getD i none with _ | v0
    case some =>
      rw [load_pb_pin_busy f prevs nets i driver v0 hp hni] at h
      exact absurd h (by simp)
    rw [load_pb_pin_step f prevs nets i driver hp hni] at h
    have hiP : i < prevs.length := getD_some_lt prevs i driver hp
    have hiN : i < nets.length := hlen ▸ hiP
    have hdri : rank driver < rank i := hrank i driver hp
    have hdne : driver ≠ i := fun he => by rw [he] at hdri; omega
    rcases hd : nets.getD driver none with _ | v
    · -- driver unresolved: recursion
      rw [hd] at h
      rcases hrec : load_atom_index_for_pb_pin f prevs nets driver with e | nets3
      · rw [hrec] at h
        exact absurd h (by simp)
      rw [hrec] at h
      replace h : (Except.ok (nets3.set i (nets3.getD driver none)) :
        Except FillErr (List (Option Nat))) = Except.ok nets2 := h
      simp only [Except.ok.injEq] at h
      subst h
      obtain ⟨L1, M1, S1, C1⟩ := ih nets driver nets3 hlen hrec
      have hiN3 : i < nets3.length := by omega
      refine ⟨by simp [L1], ?_, ?_, ?_⟩
      · intro j hj
        have hne : j ≠ i := fun he => by rw [he, hni] at hj; simp at hj
        rw [getD_set_ne _ _ _ _ _ (fun he => hne he.symm)]
        exact M1 j hj
      · rw [getD_set_self _ _ _ _ hiN3]
        exact S1
      · intro j hch
        by_cases hji : j = i
        · subst hji
          refine ⟨Nat.le_refl _, ?_, driver, hp, ?_⟩
          · rw [getD_set_self _ _ _ _ hiN3]
            exact S1
          · rw [getD_set_self _ _ _ _ hiN3, getD_set_ne _ _ _ _ _ (Ne.symm hdne)]
        · rw [getD_set_ne _ _ _ _ _ (fun he => hji he.symm)] at hch ⊢
          obtain ⟨hr1, hs1, dj, hdj, heq⟩ := C1 j hch
          have hdjr : rank dj < rank j := hrank j dj hdj
          have hdjne : dj ≠ i := fun he => by rw [he] at hdjr; omega
          refine ⟨by omega, hs1, dj, hdj, ?_⟩
          rw [getD_set_ne _ _ _ _ _ (Ne.symm hdjne)]
          exact heq
    · -- driver already resolved
      rw [hd] at h
      replace h : (Except.ok (nets.set i (some v)) :
        Except FillErr (List (Option Nat))) = Except.ok nets2 := h
      simp only [Except.ok.injEq] at h
      subst h
      refine ⟨by simp, ?_, ?_, ?_⟩
      · intro j hj
        have hne : j ≠ i := fun he => by rw [he, hni] at hj; simp at hj
        rw [getD_set_ne _ _ _ _ _ (fun he => hne he.symm)]
      · rw [getD_set_self _ _ _ _ hiN]
        rfl
      · intro j hch
        by_cases hji : j = i
        · subst hji
          refine ⟨Nat.le_refl _, ?_, driver, hp, ?_⟩
          · rw [getD_set_self _ _ _ _ hiN]
            rfl
          · rw [getD_set_self _ _ _ _ hiN, getD_set_ne _ _ _ _ _ (Ne.symm hdne), hd]
        · rw [getD_set_ne _ _ _ _ _ (fun he => hji he.symm)] at hch
          exact absurd rfl hch

theorem load_pb_pin_no_fuel (rank : Nat → Nat) (prevs : List (Option Nat))
    (hrank : ∀ j d, prevs.getD j none = some d → rank d < rank j) :
    ∀ (f : Nat) (nets : List (Option Nat)) (i : Nat), rank i < f →
      load_atom_index_for_pb_pin f prevs nets i ≠ .error .fuelOut := by
  intro f
  induction f with
  | zero => intro nets i hf; omega
  | succ f ih =>
    intro nets i hf h
    rcases hp : prevs.getD i none with _ | driver
    · rw [load_pb_pin_noprev f prevs nets i hp] at h
      simp at h
    rcases hni : nets.getD i none with _ | v0
    case some =>
      rw [load_pb_pin_busy f prevs nets i driver v0 hp hni] at h
      simp at h
    rw [load_pb_pin_step f prevs nets i driver hp hni] at h
    rcases hd : nets.getD driver none with _ | v
    · rw [hd] at h
      rcases hrec : load_atom_index_for_pb_pin f prevs nets driver with e | nets3
      · rw [hrec] at h
        replace h : (Except.error e : Except FillErr (List (Option Nat))) =
          Except.error FillErr.fuelOut := h
        simp only [Except.error.injEq] at h
        subst h
        have hdri : rank driver < rank i := hrank i driver hp
        exact ih nets driver (by omega) hrec
      · rw [hrec] at h
        exact Except.noConfusion h
    · rw [hd] at h
      exact Except.noConfusion h

theorem fillRouteLoop_spec (rank : Nat → Nat) (prevs : List (Option Nat))
    (hrank : ∀ j d, prevs.getD j none = some d → rank d < rank j) :
    ∀ (l : List Nat) (nets nets2 : List (Option Nat)),
      prevs.length = nets.length →
      fillRouteLoop prevs nets l = .ok nets2 →
      nets2.length = nets.length ∧
      (∀ j, (nets.getD j none).isSome → nets2.getD j none = nets.getD j none) ∧
      (∀ j, nets2.getD j none ≠ nets.getD j none →
        (nets2.getD j none).isSome ∧
        ∃ dj, prevs.getD j none = some dj ∧ nets2.getD j none = nets2.getD dj none) ∧
      (∀ i ∈ l, (prevs.getD i none).isSome → (nets2.getD i none).isSome) := by
  intro l
  induction l with
  | nil =>
    intro nets nets2 hlen h
    replace h : (Except.ok nets : Except FillErr (List (Option Nat))) = Except.ok nets2 := h
    simp only [Except.ok.injEq] at h
    subst h
    exact ⟨rfl, fun j _ => rfl, fun j hch => absurd rfl hch, fun i hi => absurd hi (by simp)⟩
  | cons i rest ih =>
    intro nets nets2 hlen h
    unfold fillRouteLoop at h
    by_cases hcond : (prevs.getD i none).isSome = true ∧ nets.getD i none = none
    · rw [if_pos hcond] at h
      rcases hload : load_atom_index_for_pb_pin nets.length prevs nets i with e | nets3 <;>
        rw [hload] at h
      · exact absurd h (by simp)
      obtain ⟨L1, M1, S1, C1⟩ := load_pb_pin_ok_spec rank prevs hrank nets.length nets i nets3
        hlen hload
      obtain ⟨L2, M2, G2, P2⟩ := ih nets3 nets2 (by omega) h
      refine ⟨by omega, ?_, ?_, ?_⟩
      · intro j hj
        rw [M2 j (by rw [M1 j hj]; exact hj), M1 j hj]
      · intro j hch
        by_cases hch3 : nets2.getD j none = nets3.getD j none
        · have hch1 : nets3.getD j none ≠ nets.getD j none := fun he => hch (by rw [hch3, he])
          obtain ⟨_, hs1, dj, hdj, heq⟩ := C1 j hch1
          have hsdj : (nets3.getD dj none).isSome := by rw [← heq]; exact hs1
          refine ⟨by rw [hch3]; exact hs1, dj, hdj, ?_⟩
          rw [hch3, M2 dj hsdj]
          exact heq
        · exact G2 j hch3
      · intro idx hidx hpidx
        rcases List.mem_cons.mp hidx with hidx | hidx
        · subst hidx
          rw [M2 idx S1]
          exact S1
        · exact P2 idx hidx hpidx
    · rw [if_neg hcond] at h
      obtain ⟨L2, M2, G2, P2⟩ := ih nets nets2 hlen h
      refine ⟨L2, M2, G2, ?_⟩
      intro idx hidx hpidx
      rcases List.mem_cons.mp hidx with hidx | hidx
      · subst hidx
        have hsome : (nets.getD idx none).isSome := by
          by_contra hns
          exact hcond ⟨hpidx, Option.not_isSome_iff_eq_none.mp (by simpa using hns)⟩
        rw [M2 idx hsome]
        exact hsome
      · exact P2 idx hidx hpidx

theorem fillRouteLoop_no_fuel (rank : Nat → Nat) (prevs : List (Option Nat))
    (hrank : ∀ j d, prevs.getD j none = some d → rank d < rank j) :
    ∀ (l : List Nat) (nets : List (Option Nat)),
      prevs.length = nets.length →
      (∀ i ∈ l, rank i < nets.length) →
      fillRouteLoop prevs nets l ≠ .error .fuelOut := by
  intro l
  induction l with
  | nil =>
    intro nets hlen hb h
    exact Except.noConfusion h
  | cons i rest ih =>
    intro nets hlen hb h
    unfold fillRouteLoop at h
    by_cases hcond : (prevs.getD i none).isSome = true ∧ nets.getD i none = none
    · rw [if_pos hcond] at h
      rcases hload : load_atom_index_for_pb_pin nets.length prevs nets i with e | nets3 <;>
        rw [hload] at h
      · replace h : (Except.error e : Except FillErr (List (Option Nat))) =
          Except.error FillErr.fuelOut := h
        simp only [Except.error.injEq] at h
        subst h
        exact load_pb_pin_no_fuel rank prevs hrank nets.length nets i
          (hb i (List.mem_cons_self i rest)) hload
      · obtain ⟨L1, _, _, _⟩ := load_pb_pin_ok_spec rank prevs hrank nets.length nets i nets3
          hlen hload
        refine ih nets3 (by omega) ?_ h
        intro idx hidx
        rw [L1]
        exact hb idx (List.mem_cons_of_mem i hidx)
    · rw [if_neg hcond] at h
      exact ih nets hlen (fun idx hidx => hb idx (List.mem_cons_of_mem i hidx)) h

/-- C6: after the transitive fill of load_interal_to_block_net_nums, assuming
the prev_pb_pin_id graph is acyclic (witnessed by a rank function decreasing
along prev edges and bounded by the array size) and that ingestion left no
entry with both a prev pin and a net, the recursion of
load_atom_index_for_pb_pin never exhausts its fuel (the embedding of the
unbounded source recursion, so every resolution terminates), and on success
every entry with a valid prev_pb_pin_id carries the same atom_net_id as the
entry it points to. -/
theorem C6_transitive_fill (prevs nets : List (Option Nat)) (rank : Nat → Nat)
    (hlen : prevs.length = nets.length)
    (h1 : rankDecreasing prevs rank = true)
    (h2 : rankBounded rank nets.length = true)
    (h3 : prevNetDisjoint prevs nets = true) :
    load_interal_to_block_net_nums prevs nets ≠ .error .fuelOut ∧
    ∀ nets2, load_interal_to_block_net_nums prevs nets = .ok nets2 →
      ∀ i d, prevs.getD i none = some d → nets2.getD i none = nets2.getD d none := by
  have hrank : ∀ j d, prevs.getD j none = some d → rank d < rank j := by
    intro j d hjd
    have hj : j < prevs.length := getD_some_lt prevs j d hjd
    have := List.all_eq_true.mp h1 j (List.mem_range.mpr hj)
    rw [hjd] at this
    exact of_decide_eq_true this
  have hbound : ∀ j, j < nets.length → rank j < nets.length := by
    intro j hj
    exact of_decide_eq_true (List.all_eq_true.mp h2 j (List.mem_range.mpr hj))
  have hdisj : ∀ j, j < nets.length → (prevs.getD j none).isSome → nets.getD j none = none := by
    intro j hj hs
    have := List.all_eq_true.mp h3 j (List.mem_range.mpr hj)
    rcases Bool.or_eq_true_iff.mp this with hc | hc
    · rw [hs] at hc
      simp at hc
    · exact Option.isNone_iff_eq_none.mp hc
  constructor
  · unfold load_interal_to_block_net_nums
    exact fillRouteLoop_no_fuel rank prevs hrank (List.range nets.length) nets hlen
      (fun i hi => hbound i (List.mem_range.mp hi))
  · intro nets2 hok i d hp
    obtain ⟨L, M, G, P⟩ := fillRouteLoop_spec rank prevs hrank (List.range nets.length)
      nets nets2 hlen hok
    have hiP : i < prevs.length := getD_some_lt prevs i d hp
    have hiN : i < nets.length := hlen ▸ hiP
    have hdn : nets.getD i none = none := hdisj i hiN (by rw [hp]; rfl)
    have hsome : (nets2.getD i none).isSome :=
      P i (List.mem_range.mpr hiN) (by rw [hp]; rfl)
    have hch : nets2.getD i none ≠ nets.getD i none := by
      rw [hdn]
      intro he
      rw [he] at hsome
      simp at hsome
    obtain ⟨_, dj, hdj, heq⟩ := G i hch
    rw [hp] at hdj
    injection hdj with hdd
    rw [hdd]
    exact heq

/-- C6 witness: pin 1 has prev pin 0 and no net, pin 0 carries net 5; the fill
terminates and propagates net 5 to pin 1. -/
theorem C6_transitive_fill_witness :
    load_interal_to_block_net_nums [none, some 0] [some 5, none] ≠ .error .fuelOut ∧
    ∀ nets2, load_interal_to_block_net_nums [none, some 0] [some 5, none] = .ok nets2 →
      ∀ i d, ([none, some 0] : List (Option Nat)).getD i none = some d →
        nets2.getD i none = nets2.getD d none :=
  C6_transitive_fill [none, some 0] [some 5, none] (fun i => i) (by decide) (by decide)
    (by decide) (by decide)

/-! ### C9: the constant-generator marker -/

theorem mark_out_pin_iff (route : Nat → Option Nat) (nd : Nat → Option Nat)
    (pc : Nat → Bool) (p : Nat) :
    (match route p with
      | none => true
      | some n =>
        match nd n with
        | none => false
        | some dp => pc dp) = true ↔
    (∀ n, route p = some n → ∃ dp, nd n = some dp ∧ pc dp = true) := by
  rcases hr : route p with _ | n
  · simp
  · rcases hd : nd n with _ | dp <;> simp [hd]

/-- C9: the marker traversal succeeds (no VTR_ASSERT fires) exactly when, for
every primitive leaf it visits, the constant-generator classification — the
leaf is not an inpad and every input pin and every clock pin carries no atom
net in pb_route — implies that every output pin whose pb_route entry carries
a valid net has that net driven by a pin marked constant in the atom
netlist. -/
theorem C9_mark_constant_generators (route : Nat → Option Nat)
    (net_driver : Nat → Option Nat) (pin_is_constant : Nat → Bool) (node : PbNode) :
    mark_constant_generators_rec route net_driver pin_is_constant node = true ↔
      ∀ leaf ∈ visitedLeaves node,
        (leaf.ptypeName ≠ "inpad" ∧ (∀ p ∈ leaf.inputPinIdxs, route p = none) ∧
          (∀ p ∈ leaf.clockPinIdxs, route p = none)) →
        ∀ p ∈ leaf.outputPinIdxs, ∀ n, route p = some n →
          ∃ dp, net_driver n = some dp ∧ pin_is_constant dp = true := by
  refine @PbNode.rec
    (fun nd2 => mark_constant_generators_rec route net_driver pin_is_constant nd2 = true ↔
      ∀ leaf ∈ visitedLeaves nd2,
        (leaf.ptypeName ≠ "inpad" ∧ (∀ p ∈ leaf.inputPinIdxs, route p = none) ∧
          (∀ p ∈ leaf.clockPinIdxs, route p = none)) →
        ∀ p ∈ leaf.outputPinIdxs, ∀ n, route p = some n →
          ∃ dp, net_driver n = some dp ∧ pin_is_constant dp = true)
    (fun f => mark_constant_generators_forest route net_driver pin_is_constant f = true ↔
      ∀ leaf ∈ visitedLeavesForest f,
        (leaf.ptypeName ≠ "inpad" ∧ (∀ p ∈ leaf.inputPinIdxs, route p = none) ∧
          (∀ p ∈ leaf.clockPinIdxs, route p = none)) →
        ∀ p ∈ leaf.outputPinIdxs, ∀ n, route p = some n →
          ∃ dp, net_driver n = some dp ∧ pin_is_constant dp = true)
    ?_ ?_ ?_ ?_ node
  · intro named pt inPins clkPins outPins
    simp only [mark_constant_generators_rec, visitedLeaves, List.mem_singleton]
    by_cases hpt : pt = "inpad"
    · simp [hpt]
    · rw [if_neg hpt]
      by_cases hall : ((inPins.all fun p => (route p).isNone) &&
          (clkPins.all fun p => (route p).isNone)) = true
      · rw [if_pos hall]
        have hguard : pt ≠ "inpad" ∧ (∀ p ∈ inPins, route p = none) ∧
            (∀ p ∈ clkPins, route p = none) := by
          obtain ⟨ha, hb⟩ := Bool.and_eq_true_iff.mp hall
          refine ⟨hpt, ?_, ?_⟩
          · intro p hp
            exact Option.isNone_iff_eq_none.mp (List.all_eq_true.mp ha p hp)
          · intro p hp
            exact Option.isNone_iff_eq_none.mp (List.all_eq_true.mp hb p hp)
        constructor
        · intro h leaf hleaf hg p hpmem n hn
          subst hleaf
          exact (mark_out_pin_iff route net_driver pin_is_constant p).mp
            (List.all_eq_true.mp h p hpmem) n hn
        · intro h
          apply List.all_eq_true.mpr
          intro p hpmem
          apply (mark_out_pin_iff route net_driver pin_is_constant p).mpr
          intro n hn
          exact h ⟨pt, inPins, clkPins, outPins⟩ rfl hguard p hpmem n hn
      · rw [if_neg hall]
        constructor
        · intro _ leaf hleaf hg p hpmem n hn
          exfalso
          subst hleaf
          apply hall
          rw [Bool.and_eq_true]
          constructor <;> apply List.all_eq_true.mpr <;> intro p2 hp2 <;>
            rw [Option.isNone_iff_eq_none]
          · exact hg.2.1 p2 hp2
          · exact hg.2.2 p2 hp2
        · intro _
          rfl
  · intro named children ihf
    simp only [mark_constant_generators_rec, visitedLeaves]
    exact ihf
  · simp only [mark_constant_generators_forest, visitedLeavesForest]
    simp
  · intro c rest ihc ihr
    simp only [mark_constant_generators_forest, visitedLeavesForest]
    by_cases hnamed : c.namedOf = true
    · rw [if_pos hnamed, if_pos hnamed, Bool.and_eq_true, ihc, ihr]
      constructor
      · rintro ⟨h1, h2⟩ leaf hleaf
        rcases List.mem_append.mp hleaf with hm | hm
        · exact h1 leaf hm
        · exact h2 leaf hm
      · intro h
        exact ⟨fun leaf hl => h leaf (List.mem_append_left _ hl),
          fun leaf hl => h leaf (List.mem_append_right _ hl)⟩
    · rw [if_neg hnamed, if_neg hnamed]
      exact ihr

/-! ### Store component lemmas for buffer absorption -/

theorem getD_set_none {α : Type} (l : List (Option α)) (i : Nat) :
    (l.set i none).getD i none = none := by
  by_cases h : i < l.length
  · exact getD_set_self _ _ _ _ h
  · rw [List.getD_eq_getElem?_getD, List.getElem?_eq_none (by simpa using Nat.le_of_not_lt h)]
    rfl

theorem detachPin_blocks (nl : AtomNetlist) (p : Nat) : (detachPin nl p).blocks = nl.blocks := by
  unfold detachPin
  split
  · rfl
  · split
    · rfl
    · split
      · rfl
      · rfl

theorem detachPin_pins (nl : AtomNetlist) (p : Nat) : (detachPin nl p).pins = nl.pins := by
  unfold detachPin
  split
  · rfl
  · split
    · rfl
    · split
      · rfl
      · rfl

theorem detachPin_nets_length (nl : AtomNetlist) (p : Nat) :
    (detachPin nl p).nets.length = nl.nets.length := by
  unfold detachPin
  split
  · rfl
  · split
    · rfl
    · split
      · rfl
      · simp

theorem pinStep_blocks (acc : AtomNetlist) (q : Nat) :
    (tombstonePin (detachPin acc q) q).blocks = acc.blocks := by
  show (detachPin acc q).blocks = acc.blocks
  exact detachPin_blocks acc q

theorem pinStep_nets_length (acc : AtomNetlist) (q : Nat) :
    (tombstonePin (detachPin acc q) q).nets.length = acc.nets.length := by
  show (detachPin acc q).nets.length = acc.nets.length
  exact detachPin_nets_length acc q

theorem pinStep_pinAt_self (acc : AtomNetlist) (q : Nat) :
    pinAt (tombstonePin (detachPin acc q) q) q = none := by
  show ((detachPin acc q).pins.set q none).getD q none = none
  exact getD_set_none _ q

theorem pinStep_pinAt_none (acc : AtomNetlist) (q p : Nat) (h : pinAt acc p = none) :
    pinAt (tombstonePin (detachPin acc q) q) p = none := by
  show ((detachPin acc q).pins.set q none).getD p none = none
  by_cases hpq : p = q
  · subst hpq
    exact getD_set_none _ p
  · rw [getD_set_ne _ _ _ _ _ (fun he => hpq he.symm), detachPin_pins]
    exact h

theorem foldl_pinStep_blocks (l : List Nat) :
    ∀ acc : AtomNetlist,
      (l.foldl (fun acc p => tombstonePin (detachPin acc p) p) acc).blocks = acc.blocks := by
  induction l with
  | nil => intro acc; rfl
  | cons q rest ih =>
    intro acc
    rw [List.foldl_cons, ih, pinStep_blocks]

theorem foldl_pinStep_nets_length (l : List Nat) :
    ∀ acc : AtomNetlist,
      (l.foldl (fun acc p => tombstonePin (detachPin acc p) p) acc).nets.length =
        acc.nets.length := by
  induction l with
  | nil => intro acc; rfl
  | cons q rest ih =>
    intro acc
    rw [List.foldl_cons, ih, pinStep_nets_length]

theorem foldl_pinStep_none (l : List Nat) :
    ∀ (acc : AtomNetlist) (p : Nat), pinAt acc p = none →
      pinAt (l.foldl (fun acc p => tombstonePin (detachPin acc p) p) acc) p = none := by
  induction l with
  | nil => intro acc p h; exact h
  | cons q rest ih =>
    intro acc p h
    rw [List.foldl_cons]
    exact ih _ p (pinStep_pinAt_none acc q p h)

theorem foldl_pinStep_mem (l : List Nat) :
    ∀ (acc : AtomNetlist) (p : Nat), p ∈ l →
      pinAt (l.foldl (fun acc p => tombstonePin (detachPin acc p) p) acc) p = none := by
  induction l with
  | nil => intro acc p h; simp at h
  | cons q rest ih =>
    intro acc p h
    rcases List.mem_cons.mp h with h | h
    · subst h
      rw [List.foldl_cons]
      exact foldl_pinStep_none rest _ p (pinStep_pinAt_self acc p)
    · rw [List.foldl_cons]
      exact ih _ p h

theorem remove_block_blocks (nl : AtomNetlist) (blk : Nat) (b : AtomBlock)
    (hb : blockAt nl blk = some b) :
    (remove_block nl blk).blocks = nl.blocks.set blk none := by
  simp only [remove_block, hb]
  rw [foldl_pinStep_blocks]

theorem remove_block_nets_length (nl : AtomNetlist) (blk : Nat) (b : AtomBlock)
    (hb : blockAt nl blk = some b) :
    (remove_block nl blk).nets.length = nl.nets.length := by
  simp only [remove_block, hb]
  rw [foldl_pinStep_nets_length]

theorem remove_block_pinAt_mem (nl : AtomNetlist) (blk : Nat) (b : AtomBlock)
    (hb : blockAt nl blk = some b) (p : Nat)
    (hp : p ∈ b.inputPins ++ b.outputPins ++ b.clockPins) :
    pinAt (remove_block nl blk) p = none := by
  simp only [remove_block, hb]
  show pinAt ((b.inputPins ++ b.outputPins ++ b.clockPins).foldl
    (fun acc p => tombstonePin (detachPin acc p) p) nl) p = none
  exact foldl_pinStep_mem _ nl p hp

theorem remove_net_nets (nl : AtomNetlist) (n : Nat) :
    (remove_net nl n).nets = nl.nets.set n none := rfl

theorem remove_net_blocks (nl : AtomNetlist) (n : Nat) :
    (remove_net nl n).blocks = nl.blocks := rfl

theorem remove_net_pinAt (nl : AtomNetlist) (n p : Nat) :
    pinAt (remove_net nl n) p =
      Option.map (fun pin => if pin.net = some n then { pin with net := none } else pin)
        (pinAt nl p) :=
  getD_map_optmap nl.pins _ rfl p

theorem setPinNet_nets (nl : AtomNetlist) (q n : Nat) : (setPinNet nl q n).nets = nl.nets := rfl

theorem setPinNet_blocks (nl : AtomNetlist) (q n : Nat) :
    (setPinNet nl q n).blocks = nl.blocks := rfl

theorem setPinNet_pinAt_ne (nl : AtomNetlist) (q n p : Nat) (h : p ≠ q) :
    pinAt (setPinNet nl q n) p = pinAt nl p := by
  show (nl.pins.set q _).getD p none = nl.pins.getD p none
  exact getD_set_ne _ _ _ _ _ (fun he => h he.symm)

theorem foldl_setPinNet_nets (l : List Nat) (n : Nat) :
    ∀ acc : AtomNetlist, (l.foldl (fun a q => setPinNet a q n) acc).nets = acc.nets := by
  induction l with
  | nil => intro acc; rfl
  | cons q rest ih => intro acc; rw [List.foldl_cons, ih, setPinNet_nets]

theorem foldl_setPinNet_blocks (l : List Nat) (n : Nat) :
    ∀ acc : AtomNetlist, (l.foldl (fun a q => setPinNet a q n) acc).blocks = acc.blocks := by
  induction l with
  | nil => intro acc; rfl
  | cons q rest ih => intro acc; rw [List.foldl_cons, ih, setPinNet_blocks]

theorem foldl_setPinNet_pinAt (l : List Nat) (n : Nat) :
    ∀ (acc : AtomNetlist) (p : Nat), p ∉ l →
      pinAt (l.foldl (fun a q => setPinNet a q n) acc) p = pinAt acc p := by
  induction l with
  | nil => intro acc p _; rfl
  | cons q rest ih =>
    intro acc p hp
    have hpq : p ≠ q := fun he => hp (by rw [he]; exact List.mem_cons_self q rest)
    rw [List.foldl_cons, ih _ p (fun hm => hp (List.mem_cons_of_mem q hm)),
      setPinNet_pinAt_ne _ _ _ _ hpq]

theorem add_net_nets (nl : AtomNetlist) (nm : String) (driver : Nat) (sinks : List Nat) :
    (add_net nl nm driver sinks).nets = nl.nets ++ [some ⟨nm, some driver, sinks, false⟩] := by
  unfold add_net
  rw [foldl_setPinNet_nets]

theorem add_net_blocks (nl : AtomNetlist) (nm : String) (driver : Nat) (sinks : List Nat) :
    (add_net nl nm driver sinks).blocks = nl.blocks := by
  unfold add_net
  rw [foldl_setPinNet_blocks]

theorem add_net_pinAt_notin (nl : AtomNetlist) (nm : String) (driver : Nat) (sinks : List Nat)
    (p : Nat) (h1 : p ≠ driver) (h2 : p ∉ sinks) :
    pinAt (add_net nl nm driver sinks) p = pinAt nl p := by
  unfold add_net
  rw [foldl_setPinNet_pinAt]
  · rfl
  · intro hm
    rcases List.mem_cons.mp hm with hm | hm
    · exact h1 hm
    · exact h2 hm

/-! ### C3: buffer absorption in the non-skip case -/

/-- C3 counterexample: in c3Netlist the buffer input net is driven by an INPAD
and feeds an OUTPAD directly, while the buffer OUTPUT net has no OUTPAD sink.
The claim says this is not the skip case (its skip condition reads the output
net sinks only), so the buffer must be absorbed; the source computes the
primary-output test over the merged sink set, takes the skip path, and leaves
the netlist unchanged. -/
theorem C3_remove_buffer_lut_counterexample :
    remove_buffer_lut c3Netlist 1 = some c3Netlist ∧
    (blockAt c3Netlist 1).isSome = true ∧
    pin_net c3Netlist 1 = some 0 ∧ pin_net c3Netlist 2 = some 1 ∧
    pin_block_type c3Netlist 0 = some .INPAD ∧
    ((net_sinks c3Netlist 1).all fun q =>
      !(decide (pin_block_type c3Netlist q = some .OUTPAD))) = true := by
  decide

/-- C3 amended: for a buffer LUT not in the skip case, where the skip case is
driver-on-INPAD and some sink of the MERGED sink set
(sinks of the input net minus the buffer input pin, plus the sinks of the
output net) on an OUTPAD, remove_buffer_lut removes the block and both its
pins, removes both nets, and appends one new net whose driver is the input
net driver, whose sinks are the merged sink set, and whose name is the input
net name when the driver is on an INPAD and the output net name otherwise.
The hypotheses spell out the referential-integrity facts any consistent
netlist satisfies around a buffer. -/
theorem C3_remove_buffer_lut_amended
    (nl : AtomNetlist) (blk : Nat) (b : AtomBlock)
    (input_pin output_pin input_net output_net new_driver : Nat)
    (pinInRec pinOutRec : AtomPin) (netIn netOut : AtomNet)
    (hb : blockAt nl blk = some b)
    (hip : b.inputPins = [input_pin]) (hop : b.outputPins = [output_pin])
    (hclk : b.clockPins = [])
    (hpIn : pinAt nl input_pin = some pinInRec) (hpInNet : pinInRec.net = some input_net)
    (hpOut : pinAt nl output_pin = some pinOutRec) (hpOutNet : pinOutRec.net = some output_net)
    (hnin : netAt nl input_net = some netIn) (hnout : netAt nl output_net = some netOut)
    (hneq : input_net ≠ output_net) (hpe : input_pin ≠ output_pin)
    (hdrv : netIn.driver = some new_driver)
    (hdt : pin_type nl new_driver = some .DRIVER)
    (hcnt : netIn.sinks.count input_pin = 1)
    (hD1 : new_driver ≠ input_pin) (hD2 : new_driver ≠ output_pin)
    (hop1 : output_pin ∉ netIn.sinks) (hop2 : output_pin ∉ netOut.sinks)
    (hip2 : input_pin ∉ netOut.sinks)
    (hns : ¬ (pin_block_type nl new_driver = some .INPAD ∧
      ∃ q ∈ (netIn.sinks.filter fun q => q ≠ input_pin) ++ netOut.sinks,
        pin_block_type nl q = some .OUTPAD)) :
    (remove_buffer_lut nl blk).isSome ∧
    ∀ nl2, remove_buffer_lut nl blk = some nl2 →
      blockAt nl2 blk = none ∧
      pinAt nl2 input_pin = none ∧ pinAt nl2 output_pin = none ∧
      netAt nl2 input_net = none ∧ netAt nl2 output_net = none ∧
      netAt nl2 nl.nets.length = some
        ⟨(if pin_block_type nl new_driver = some .INPAD then netIn.name else netOut.name),
          some new_driver, (netIn.sinks.filter fun q => q ≠ input_pin) ++ netOut.sinks,
          false⟩ := by
  have hin : pin_net nl input_pin = some input_net := by
    simp [pin_net, hpIn, hpInNet]
  have hon : pin_net nl output_pin = some output_net := by
    simp [pin_net, hpOut, hpOutNet]
  have hnd : net_driver nl input_net = some new_driver := by
    simp [net_driver, hnin, hdrv]
  have hsin : net_sinks nl input_net = netIn.sinks := by
    simp [net_sinks, hnin]
  have hsout : net_sinks nl output_net = netOut.sinks := by
    simp [net_sinks, hnout]
  have hnamein : net_name nl input_net = netIn.name := by
    simp [net_name, hnin]
  have hnameout : net_name nl output_net = netOut.name := by
    simp [net_name, hnout]
  have hlenf := filter_ne_length_of_count_one netIn.sinks input_pin hcnt
  have hguard : ((netIn.sinks.filter fun q => q ≠ input_pin) ++ netOut.sinks).length + 1 =
      netIn.sinks.length + netOut.sinks.length := by
    rw [List.length_append]
    omega
  have hres : remove_buffer_lut nl blk = some
      (add_net (remove_net (remove_net (remove_block nl blk) input_net) output_net)
        (if pin_block_type nl new_driver = some AtomBlockType.INPAD then netIn.name
          else netOut.name)
        new_driver ((netIn.sinks.filter fun q => q ≠ input_pin) ++ netOut.sinks)) := by
    simp only [remove_buffer_lut, hb, hip, hop, hin, hon, hnd]
    rw [if_pos hdt, hsin, hsout, if_pos hguard]
    by_cases hpi : pin_block_type nl new_driver = some AtomBlockType.INPAD
    · have hpiB : decide (pin_block_type nl new_driver = some AtomBlockType.INPAD) = true :=
        decide_eq_true hpi
      have hpoB : (((netIn.sinks.filter fun q => q ≠ input_pin) ++ netOut.sinks).any
          fun q => decide (pin_block_type nl q = some AtomBlockType.OUTPAD)) = false := by
        rw [List.any_eq_false]
        intro q hq habs
        exact hns ⟨hpi, q, hq, of_decide_eq_true habs⟩
      rw [hpiB, hpoB]
      simp [hpi, hnamein]
    · have hpiB : decide (pin_block_type nl new_driver = some AtomBlockType.INPAD) = false :=
        decide_eq_false hpi
      rw [hpiB]
      cases hpoB : (((netIn.sinks.filter fun q => q ≠ input_pin) ++ netOut.sinks).any
          fun q => decide (pin_block_type nl q = some AtomBlockType.OUTPAD)) <;>
        simp [hpi, hnameout]
  have hblkLt : blk < nl.blocks.length := getD_some_lt nl.blocks blk b hb
  have hinLt : input_net < nl.nets.length := getD_some_lt nl.nets input_net netIn hnin
  have hnewSinks : input_pin ∉ (netIn.sinks.filter fun q => q ≠ input_pin) ++ netOut.sinks := by
    intro hm
    rcases List.mem_append.mp hm with hm | hm
    · have := List.of_mem_filter hm
      simp at this
    · exact hip2 hm
  have hnewSinksOut : output_pin ∉ (netIn.sinks.filter fun q => q ≠ input_pin) ++
      netOut.sinks := by
    intro hm
    rcases List.mem_append.mp hm with hm | hm
    · exact hop1 (List.mem_of_mem_filter hm)
    · exact hop2 hm
  have hnetsLenA : (remove_block nl blk).nets.length = nl.nets.length :=
    remove_block_nets_length nl blk b hb
  have hmemIn : input_pin ∈ b.inputPins ++ b.outputPins ++ b.clockPins := by
    rw [hip, hop, hclk]
    exact List.mem_append_left _ (List.mem_append_left _ (List.mem_singleton.mpr rfl))
  have hmemOut : output_pin ∈ b.inputPins ++ b.outputPins ++ b.clockPins := by
    rw [hip, hop, hclk]
    exact List.mem_append_left _ (List.mem_append_right _ (List.mem_singleton.mpr rfl))
  refine ⟨by rw [hres]; rfl, ?_⟩
  intro nl2 h2
  rw [hres] at h2
  simp only [Option.some.injEq] at h2
  subst h2
  refine ⟨?_, ?_, ?_, ?_, ?_, ?_⟩
  · show (add_net _ _ _ _).blocks.getD blk none = none
    rw [add_net_blocks, remove_net_blocks, remove_net_blocks, remove_block_blocks nl blk b hb]
    exact getD_set_none nl.blocks blk
  · rw [add_net_pinAt_notin _ _ _ _ input_pin (Ne.symm hD1) hnewSinks,
      remove_net_pinAt, remove_net_pinAt,
      remove_block_pinAt_mem nl blk b hb input_pin hmemIn]
    rfl
  · rw [add_net_pinAt_notin _ _ _ _ output_pin (Ne.symm hD2) hnewSinksOut,
      remove_net_pinAt, remove_net_pinAt,
      remove_block_pinAt_mem nl blk b hb output_pin hmemOut]
    rfl
  · show (add_net _ _ _ _).nets.getD input_net none = none
    rw [add_net_nets, remove_net_nets, remove_net_nets]
    rw [getD_append_left _ _ _ _ (by simp [hnetsLenA]; omega)]
    rw [getD_set_ne _ _ _ _ _ (Ne.symm hneq)]
    exact getD_set_none _ input_net
  · show (add_net _ _ _ _).nets.getD output_net none = none
    rw [add_net_nets, remove_net_nets, remove_net_nets]
    have houtLt : output_net < nl.nets.length := getD_some_lt nl.nets output_net netOut hnout
    rw [getD_append_left _ _ _ _ (by simp [hnetsLenA]; omega)]
    exact getD_set_none _ output_net
  · show (add_net _ _ _ _).nets.getD nl.nets.length none = _
    rw [add_net_nets, remove_net_nets, remove_net_nets]
    have hlen3 : (((remove_block nl blk).nets.set input_net none).set output_net
        none).length = nl.nets.length := by
      simp [hnetsLenA]
    rw [← hlen3, getD_concat_length]

/-- C3 amended witness: absorbing the buffer of c3wNetlist removes block 1,
pins 1 and 2, nets 0 and 1, and appends the merged net named n2 driven by pin
0 with sink pin 3. -/
theorem C3_remove_buffer_lut_amended_witness :
    (remove_buffer_lut c3wNetlist 1).isSome ∧
    ∀ nl2, remove_buffer_lut c3wNetlist 1 = some nl2 →
      blockAt nl2 1 = none ∧
      pinAt nl2 1 = none ∧ pinAt nl2 2 = none ∧
      netAt nl2 0 = none ∧ netAt nl2 1 = none ∧
      netAt nl2 c3wNetlist.nets.length = some
        ⟨(if pin_block_type c3wNetlist 0 = some .INPAD then
            AtomNet.name ⟨"n1", some 0, [1], false⟩
          else AtomNet.name ⟨"n2", some 2, [3], false⟩),
          some 0, ((AtomNet.sinks ⟨"n1", some 0, [1], false⟩).filter fun q => q ≠ 1) ++
            AtomNet.sinks ⟨"n2", some 2, [3], false⟩, false⟩ :=
  C3_remove_buffer_lut_amended c3wNetlist 1
    ⟨"b", .COMBINATIONAL, "names", [[.TRUE, .TRUE]], 1, 1, [1], [2], []⟩
    1 2 0 1 0 ⟨1, .SINK, some 0⟩ ⟨1, .DRIVER, some 1⟩
    ⟨"n1", some 0, [1], false⟩ ⟨"n2", some 2, [3], false⟩
    (by decide) (by decide) (by decide) (by decide) (by decide) (by decide) (by decide)
    (by decide) (by decide) (by decide) (by decide) (by decide) (by decide) (by decide)
    (by decide) (by decide) (by decide) (by decide) (by decide) (by decide) (by decide)

/-! ### C7: the LUT mask of a truth table -/

theorem ctm_stop (cube : List LogicValue) (i : Nat) (hasDc : Bool) (h : ¬ i < cube.length) :
    cube_to_minterms_recurr cube i hasDc = if hasDc then [] else [cubeVal cube] := by
  rw [cube_to_minterms_recurr]
  rw [dif_neg h]

theorem ctm_dc (cube : List LogicValue) (i : Nat) (hasDc : Bool) (h : i < cube.length)
    (hdc : cube.getD i .UNKOWN = .DONT_CARE) :
    cube_to_minterms_recurr cube i hasDc =
      cube_to_minterms_recurr (cube.set i .TRUE) 0 false ++
        cube_to_minterms_recurr (cube.set i .FALSE) 0 false ++
          cube_to_minterms_recurr cube (i + 1) true := by
  rw [cube_to_minterms_recurr]
  rw [dif_pos h, if_pos hdc]

theorem ctm_nodc (cube : List LogicValue) (i : Nat) (hasDc : Bool) (h : i < cube.length)
    (hdc : ¬ cube.getD i .UNKOWN = .DONT_CARE) :
    cube_to_minterms_recurr cube i hasDc = cube_to_minterms_recurr cube (i + 1) hasDc := by
  rw [cube_to_minterms_recurr]
  rw [dif_pos h, if_neg hdc]

theorem mem_ctm_stop (cube : List LogicValue) (i : Nat) (hasDc : Bool) (m : Nat)
    (h : ¬ i < cube.length) :
    m ∈ cube_to_minterms_recurr cube i hasDc ↔ (hasDc = false ∧ m = cubeVal cube) := by
  rw [ctm_stop _ _ _ h]
  cases hasDc <;> simp

theorem mem_ctm_spec (cube : List LogicValue) :
    ∀ i hasDc m, m ∈ cube_to_minterms_recurr cube i hasDc ↔
      ((∃ j, i ≤ j ∧ j < cube.length ∧ cube.getD j .UNKOWN = .DONT_CARE ∧
          (m ∈ cube_to_minterms_recurr (cube.set j .TRUE) 0 false ∨
            m ∈ cube_to_minterms_recurr (cube.set j .FALSE) 0 false)) ∨
        (hasDc = false ∧ (∀ j, i ≤ j → j < cube.length →
          ¬ cube.getD j .UNKOWN = .DONT_CARE) ∧ m = cubeVal cube)) := by
  suffices H : ∀ n i hasDc m, cube.length - i ≤ n →
      (m ∈ cube_to_minterms_recurr cube i hasDc ↔
        ((∃ j, i ≤ j ∧ j < cube.length ∧ cube.getD j .UNKOWN = .DONT_CARE ∧
            (m ∈ cube_to_minterms_recurr (cube.set j .TRUE) 0 false ∨
              m ∈ cube_to_minterms_recurr (cube.set j .FALSE) 0 false)) ∨
          (hasDc = false ∧ (∀ j, i ≤ j → j < cube.length →
            ¬ cube.getD j .UNKOWN = .DONT_CARE) ∧ m = cubeVal cube))) by
    intro i hasDc m
    exact H cube.length i hasDc m (by omega)
  intro n
  induction n with
  | zero =>
    intro i hasDc m hle
    have h : ¬ i < cube.length := by omega
    rw [mem_ctm_stop _ _ _ _ h]
    constructor
    · rintro ⟨hdcf, hm⟩
      exact Or.inr ⟨hdcf, fun j hji hjl => absurd hjl (by omega), hm⟩
    · rintro (⟨j, hji, hjl, _, _⟩ | ⟨hdcf, _, hm⟩)
      · exact absurd hjl (by omega)
      · exact ⟨hdcf, hm⟩
  | succ n ih =>
    intro i hasDc m hle
    by_cases h : i < cube.length
    · by_cases hdc : cube.getD i .UNKOWN = .DONT_CARE
      · rw [ctm_dc _ _ _ h hdc]
        simp only [List.mem_append]
        rw [ih (i + 1) true m (by omega)]
        constructor
        · rintro ((hT | hF) | (⟨j, hji, hjl, hjdc, hm⟩ | ⟨hfalse, _, _⟩))
          · exact Or.inl ⟨i, le_refl i, h, hdc, Or.inl hT⟩
          · exact Or.inl ⟨i, le_refl i, h, hdc, Or.inr hF⟩
          · exact Or.inl ⟨j, by omega, hjl, hjdc, hm⟩
          · exact absurd hfalse (by simp)
        · rintro (⟨j, hji, hjl, hjdc, hm⟩ | ⟨_, hnodc, _⟩)
          · rcases eq_or_lt_of_le hji with heq | hlt
            · rw [← heq] at hm
              rcases hm with hT | hF
              · exact Or.inl (Or.inl hT)
              · exact Or.inl (Or.inr hF)
            · exact Or.inr (Or.inl ⟨j, by omega, hjl, hjdc, hm⟩)
          · exact absurd hdc (hnodc i (le_refl i) h)
      · rw [ctm_nodc _ _ _ h hdc]
        rw [ih (i + 1) hasDc m (by omega)]
        constructor
        · rintro (⟨j, hji, hjl, hjdc, hm⟩ | ⟨hdcf, hnodc, hm⟩)
          · exact Or.inl ⟨j, by omega, hjl, hjdc, hm⟩
          · refine Or.inr ⟨hdcf, ?_, hm⟩
            intro j hji hjl
            rcases eq_or_lt_of_le hji with heq | hlt
            · rw [← heq]
              exact hdc
            · exact hnodc j hlt hjl
        · rintro (⟨j, hji, hjl, hjdc, hm⟩ | ⟨hdcf, hnodc, hm⟩)
          · rcases eq_or_lt_of_le hji with heq | hlt
            · rw [← heq] at hjdc
              exact absurd hjdc hdc
            · exact Or.inl ⟨j, hlt, hjl, hjdc, hm⟩
          · exact Or.inr ⟨hdcf, fun j hji hjl => hnodc j (by omega) hjl, hm⟩
    · rw [mem_ctm_stop _ _ _ _ h]
      constructor
      · rintro ⟨hdcf, hm⟩
        exact Or.inr ⟨hdcf, fun j hji hjl => absurd hjl (by omega), hm⟩
      · rintro (⟨j, hji, hjl, _, _⟩ | ⟨hdcf, _, hm⟩)
        · exact absurd hjl (by omega)
        · exact ⟨hdcf, hm⟩

theorem coversCube_noDC (cube : List LogicValue)
    (hTF : ∀ v ∈ cube, v = LogicValue.TRUE ∨ v = LogicValue.FALSE) :
    ∀ m, (coversCube cube m = true ↔ m = cubeVal cube) := by
  induction cube with
  | nil =>
    intro m
    simp [coversCube, cubeVal]
  | cons v rest ih =>
    intro m
    have hrest := ih (fun w hw => hTF w (List.mem_cons_of_mem _ hw)) (m / 2)
    rcases hTF v (List.mem_cons_self v rest) with hv | hv <;> subst hv
    · have hcov : coversCube (LogicValue.TRUE :: rest) m =
          (decide (m % 2 = 1) && coversCube rest (m / 2)) := by
        simp [coversCube]
      have hval : cubeVal (LogicValue.TRUE :: rest) = 1 + 2 * cubeVal rest := by
        simp [cubeVal]
      rw [hcov, hval, Bool.and_eq_true, decide_eq_true_eq]
      constructor
      · rintro ⟨h1, h2⟩
        have := hrest.mp h2
        omega
      · intro hm
        have hdiv : m / 2 = cubeVal rest := by omega
        have hmod : m % 2 = 1 := by omega
        exact ⟨hmod, hrest.mpr hdiv⟩
    · have hcov : coversCube (LogicValue.FALSE :: rest) m =
          (decide (m % 2 = 0) && coversCube rest (m / 2)) := by
        simp [coversCube]
      have hval : cubeVal (LogicValue.FALSE :: rest) = 2 * cubeVal rest := by
        simp [cubeVal]
      rw [hcov, hval, Bool.and_eq_true, decide_eq_true_eq]
      constructor
      · rintro ⟨h1, h2⟩
        have := hrest.mp h2
        omega
      · intro hm
        have hdiv : m / 2 = cubeVal rest := by omega
        have hmod : m % 2 = 0 := by omega
        exact ⟨hmod, hrest.mpr hdiv⟩

theorem coversCube_set_dc (cube : List LogicValue) :
    ∀ j m, j < cube.length → cube.getD j .UNKOWN = .DONT_CARE →
      (coversCube cube m = true ↔
        (coversCube (cube.set j .TRUE) m = true ∨ coversCube (cube.set j .FALSE) m = true)) := by
  induction cube with
  | nil =>
    intro j m hjl _
    exact absurd hjl (by simp)
  | cons v rest ih =>
    intro j m hjl hjdc
    cases j with
    | zero =>
      have hv : v = LogicValue.DONT_CARE := hjdc
      subst hv
      have hc1 : coversCube (LogicValue.DONT_CARE :: rest) m = coversCube rest (m / 2) := by
        simp [coversCube]
      have hc2 : coversCube (LogicValue.TRUE :: rest) m =
          (decide (m % 2 = 1) && coversCube rest (m / 2)) := by
        simp [coversCube]
      have hc3 : coversCube (LogicValue.FALSE :: rest) m =
          (decide (m % 2 = 0) && coversCube rest (m / 2)) := by
        simp [coversCube]
      rw [List.set_cons_zero, List.set_cons_zero, hc1, hc2, hc3]
      simp only [Bool.and_eq_true, decide_eq_true_eq]
      constructor
      · intro hc
        have hm2 : m % 2 = 0 ∨ m % 2 = 1 := by omega
        rcases hm2 with h0 | h1
        · exact Or.inr ⟨h0, hc⟩
        · exact Or.inl ⟨h1, hc⟩
      · rintro (⟨_, hc⟩ | ⟨_, hc⟩) <;> exact hc
    | succ j =>
      have hjl2 : j < rest.length := by
        simp at hjl
        omega
      have hjdc2 : rest.getD j .UNKOWN = .DONT_CARE := hjdc
      have hih := ih j (m / 2) hjl2 hjdc2
      simp only [List.set_cons_succ, coversCube]
      simp only [Bool.and_eq_true]
      constructor
      · rintro ⟨⟨hA, hB⟩, hX⟩
        rcases hih.mp hX with h1 | h1
        · exact Or.inl ⟨⟨hA, hB⟩, h1⟩
        · exact Or.inr ⟨⟨hA, hB⟩, h1⟩
      · rintro (⟨⟨hA, hB⟩, h1⟩ | ⟨⟨hA, hB⟩, h1⟩)
        · exact ⟨⟨hA, hB⟩, hih.mpr (Or.inl h1)⟩
        · exact ⟨⟨hA, hB⟩, hih.mpr (Or.inr h1)⟩

theorem dcCount_zero_nodc (cube : List LogicValue) (hdc : dcCount cube = 0) :
    ∀ j, j < cube.length → ¬ cube.getD j .UNKOWN = .DONT_CARE := by
  intro j hjl habs
  have hmem : cube.getD j .UNKOWN ∈ cube := by
    rw [List.getD_eq_getElem?_getD, List.getElem?_eq_getElem hjl]
    exact List.getElem_mem _
  have := List.countP_eq_zero.mp hdc _ hmem
  rw [habs] at this
  simp at this

theorem mem_cube_to_minterms_nodc (cube : List LogicValue) (hdc : dcCount cube = 0)
    (hwf : ∀ v ∈ cube, v = LogicValue.TRUE ∨ v = LogicValue.FALSE ∨ v = LogicValue.DONT_CARE)
    (m : Nat) : m ∈ cube_to_minterms cube ↔ coversCube cube m = true := by
  have hnodc := dcCount_zero_nodc cube hdc
  have hTF : ∀ v ∈ cube, v = LogicValue.TRUE ∨ v = LogicValue.FALSE := by
    intro v hv
    rcases hwf v hv with h | h | h
    · exact Or.inl h
    · exact Or.inr h
    · exfalso
      have := List.countP_eq_zero.mp hdc _ hv
      rw [h] at this
      simp at this
  rw [cube_to_minterms, mem_ctm_spec]
  constructor
  · rintro (⟨j, _, hjl, hjdc, _⟩ | ⟨_, _, hm⟩)
    · exact absurd hjdc (hnodc j hjl)
    · exact (coversCube_noDC cube hTF m).mpr hm
  · intro hcov
    exact Or.inr ⟨rfl, fun j _ hjl => hnodc j hjl, (coversCube_noDC cube hTF m).mp hcov⟩

theorem dcCount_set_lt (cube : List LogicValue) (j : Nat) (hjl : j < cube.length)
    (hjdc : cube.getD j .UNKOWN = .DONT_CARE) (x : LogicValue) (hx : ¬ x = .DONT_CARE) :
    dcCount (cube.set j x) < dcCount cube := by
  have hdc : cube[j] = LogicValue.DONT_CARE := by
    have hi : cube.getD j .UNKOWN = cube[j] := by
      rw [List.getD_eq_getElem?_getD, List.getElem?_eq_getElem hjl]
      rfl
    rw [← hi]
    exact hjdc
  have hle := List.boole_getElem_le_countP (fun v => decide (v = LogicValue.DONT_CARE)) cube j hjl
  unfold dcCount
  rw [List.countP_set _ _ _ _ hjl]
  simp only [hdc] at hle ⊢
  simp [hx] at hle ⊢
  exact hle

theorem wf_set_tf (cube : List LogicValue)
    (hwf : ∀ v ∈ cube, v = LogicValue.TRUE ∨ v = LogicValue.FALSE ∨ v = LogicValue.DONT_CARE)
    (j : Nat) (x : LogicValue)
    (hx : x = LogicValue.TRUE ∨ x = LogicValue.FALSE ∨ x = LogicValue.DONT_CARE) :
    ∀ v ∈ cube.set j x, v = LogicValue.TRUE ∨ v = LogicValue.FALSE ∨
      v = LogicValue.DONT_CARE := by
  intro v hv
  rcases List.mem_or_eq_of_mem_set hv with h | h
  · exact hwf v h
  · rw [h]
    exact hx

theorem mem_cube_to_minterms_aux : ∀ (n : Nat) (cube : List LogicValue), dcCount cube ≤ n →
    (∀ v ∈ cube, v = LogicValue.TRUE ∨ v = LogicValue.FALSE ∨ v = LogicValue.DONT_CARE) →
    ∀ m, (m ∈ cube_to_minterms cube ↔ coversCube cube m = true) := by
  intro n
  induction n with
  | zero =>
    intro cube hdc hwf m
    exact mem_cube_to_minterms_nodc cube (by omega) hwf m
  | succ n ih =>
    intro cube hdc hwf m
    by_cases h0 : dcCount cube = 0
    · exact mem_cube_to_minterms_nodc cube h0 hwf m
    · have hex : ∃ v ∈ cube, v = LogicValue.DONT_CARE := by
        by_contra hc
        push_neg at hc
        exact h0 (List.countP_eq_zero.mpr (fun a ha => by simp [hc a ha]))
      obtain ⟨v, hv, hvdc⟩ := hex
      obtain ⟨⟨j, hjl⟩, hget⟩ := List.get_of_mem hv
      have hjdc : cube.getD j .UNKOWN = .DONT_CARE := by
        rw [List.getD_eq_getElem?_getD, List.getElem?_eq_getElem hjl]
        simp only [Option.getD_some]
        rw [show cube[j] = v from hget, hvdc]
      rw [cube_to_minterms, mem_ctm_spec]
      constructor
      · rintro (⟨j2, _, hj2l, hj2dc, hm⟩ | ⟨_, hnodc, _⟩)
        · have hdT := dcCount_set_lt cube j2 hj2l hj2dc LogicValue.TRUE (by decide)
          have hdF := dcCount_set_lt cube j2 hj2l hj2dc LogicValue.FALSE (by decide)
          have hwfT := wf_set_tf cube hwf j2 LogicValue.TRUE (Or.inl rfl)
          have hwfF := wf_set_tf cube hwf j2 LogicValue.FALSE (Or.inr (Or.inl rfl))
          rcases hm with hmT | hmF
          · have hcov := (ih (cube.set j2 LogicValue.TRUE) (by omega) hwfT m).mp hmT
            exact (coversCube_set_dc cube j2 m hj2l hj2dc).mpr (Or.inl hcov)
          · have hcov := (ih (cube.set j2 LogicValue.FALSE) (by omega) hwfF m).mp hmF
            exact (coversCube_set_dc cube j2 m hj2l hj2dc).mpr (Or.inr hcov)
        · exact absurd hjdc (hnodc j (Nat.zero_le j) hjl)
      · intro hcov
        have hdT := dcCount_set_lt cube j hjl hjdc LogicValue.TRUE (by decide)
        have hdF := dcCount_set_lt cube j hjl hjdc LogicValue.FALSE (by decide)
        have hwfT := wf_set_tf cube hwf j LogicValue.TRUE (Or.inl rfl)
        have hwfF := wf_set_tf cube hwf j LogicValue.FALSE (Or.inr (Or.inl rfl))
        rcases (coversCube_set_dc cube j m hjl hjdc).mp hcov with h1 | h1
        · exact Or.inl ⟨j, Nat.zero_le j, hjl, hjdc,
            Or.inl ((ih (cube.set j LogicValue.TRUE) (by omega) hwfT m).mpr h1)⟩
        · exact Or.inl ⟨j, Nat.zero_le j, hjl, hjdc,
            Or.inr ((ih (cube.set j LogicValue.FALSE) (by omega) hwfF m).mpr h1)⟩

theorem mem_cube_to_minterms (cube : List LogicValue)
    (hwf : ∀ v ∈ cube, v = LogicValue.TRUE ∨ v = LogicValue.FALSE ∨ v = LogicValue.DONT_CARE)
    (m : Nat) : m ∈ cube_to_minterms cube ↔ coversCube cube m = true :=
  mem_cube_to_minterms_aux (dcCount cube) cube (le_refl _) hwf m

theorem markMinterms_cons (mask : List LogicValue) (x : Nat) (rest : List Nat)
    (tgt : LogicValue) :
    markMinterms mask (x :: rest) tgt = markMinterms (mask.set x tgt) rest tgt := rfl

theorem markMinterms_length (ms : List Nat) : ∀ (mask : List LogicValue) (tgt : LogicValue),
    (markMinterms mask ms tgt).length = mask.length := by
  induction ms with
  | nil =>
    intro mask tgt
    rfl
  | cons x rest ih =>
    intro mask tgt
    rw [markMinterms_cons, ih, List.length_set]

theorem markMinterms_getD (ms : List Nat) : ∀ (mask : List LogicValue) (tgt : LogicValue)
    (m : Nat), m < mask.length →
    (markMinterms mask ms tgt).getD m .UNKOWN =
      if m ∈ ms then tgt else mask.getD m .UNKOWN := by
  induction ms with
  | nil =>
    intro mask tgt m hm
    simp [markMinterms]
  | cons x rest ih =>
    intro mask tgt m hm
    rw [markMinterms_cons, ih (mask.set x tgt) tgt m (by rw [List.length_set]; exact hm)]
    by_cases hmr : m ∈ rest
    · rw [if_pos hmr, if_pos (List.mem_cons_of_mem x hmr)]
    · by_cases hmx : m = x
      · subst hmx
        rw [if_neg hmr, if_pos (List.mem_cons_self m rest)]
        exact getD_set_self _ _ _ _ hm
      · have hnotin : m ∉ x :: rest := by
          intro hc
          rcases List.mem_cons.mp hc with h | h
          · exact hmx h
          · exact hmr h
        rw [if_neg hmr, if_neg hnotin]
        exact getD_set_ne mask x m tgt _ (fun he => hmx he.symm)

theorem maskFold_length (rows : List (List LogicValue)) :
    ∀ (mask : List LogicValue) (tgt : LogicValue),
    (rows.foldl (fun acc row => markMinterms acc (cube_to_minterms row.dropLast) tgt)
      mask).length = mask.length := by
  induction rows with
  | nil =>
    intro mask tgt
    rfl
  | cons r rest ih =>
    intro mask tgt
    rw [List.foldl_cons, ih, markMinterms_length]

theorem maskFold_getD (rows : List (List LogicValue)) :
    ∀ (mask : List LogicValue) (tgt : LogicValue) (m : Nat), m < mask.length →
    (rows.foldl (fun acc row => markMinterms acc (cube_to_minterms row.dropLast) tgt)
        mask).getD m .UNKOWN =
      if rows.any (fun row => decide (m ∈ cube_to_minterms row.dropLast)) then tgt
      else mask.getD m .UNKOWN := by
  induction rows with
  | nil =>
    intro mask tgt m hm
    simp
  | cons r rest ih =>
    intro mask tgt m hm
    rw [List.foldl_cons,
      ih (markMinterms mask (cube_to_minterms r.dropLast) tgt) tgt m
        (by rw [markMinterms_length]; exact hm),
      markMinterms_getD _ _ _ _ hm, List.any_cons]
    by_cases hmr : m ∈ cube_to_minterms r.dropLast
    · simp [hmr]
    · simp [hmr]

theorem any_congr_mem {α : Type} (l : List α) (f g : α → Bool)
    (h : ∀ x ∈ l, f x = g x) : l.any f = l.any g := by
  induction l with
  | nil => rfl
  | cons a as ih =>
    rw [List.any_cons, List.any_cons, h a (List.mem_cons_self a as),
      ih (fun x hx => h x (List.mem_cons_of_mem a hx))]

/-- C7: truth_table_to_lut_mask t k returns a mask of length exactly 2 to the
k, with the encoding (on-set or off-set) inferred from the output value of the
first row (an empty table counting as an on-set encoding, giving an all-FALSE
mask); under on-set encoding the mask is TRUE exactly at the minterms covered
by the input cube of some row, dont-cares expanded to both values, and FALSE
elsewhere, and dually under off-set encoding.  The hypotheses record what the
VTR_ASSERTs of the source demand: every row carries k inputs plus one output,
every cube entry is TRUE, FALSE or DONT_CARE, and the first-row output value
is recognised. -/
theorem C7_truth_table_to_lut_mask (t : List (List LogicValue)) (k : Nat)
    (hrows : ∀ row ∈ t, row.length = k + 1 ∧
      ∀ v ∈ row.dropLast, v = LogicValue.TRUE ∨ v = LogicValue.FALSE ∨
        v = LogicValue.DONT_CARE)
    (hout : (truth_table_encodes_on_set t).isSome = true) :
    (truth_table_to_lut_mask t k).isSome = true ∧
    ∀ mask on_set, truth_table_to_lut_mask t k = some mask →
      truth_table_encodes_on_set t = some on_set →
      mask.length = 2 ^ k ∧
      ∀ m, m < 2 ^ k → mask.getD m LogicValue.UNKOWN =
        if t.any fun row => coversCube row.dropLast m then
          (if on_set then LogicValue.TRUE else LogicValue.FALSE)
        else (if on_set then LogicValue.FALSE else LogicValue.TRUE) := by
  obtain ⟨os, hos⟩ := Option.isSome_iff_exists.mp hout
  constructor
  · simp [truth_table_to_lut_mask, hos]
  · intro mask on_set hm hE
    rw [hos] at hE
    simp only [Option.some.injEq] at hE
    subst hE
    simp only [truth_table_to_lut_mask, hos, Option.some.injEq] at hm
    subst hm
    constructor
    · rw [maskFold_length, List.length_replicate]
    · intro m hmlt
      rw [maskFold_getD _ _ _ _ (by rw [List.length_replicate]; exact hmlt)]
      have hrep : (List.replicate (2 ^ k)
          (if os then LogicValue.FALSE else LogicValue.TRUE)).getD m LogicValue.UNKOWN =
          (if os then LogicValue.FALSE else LogicValue.TRUE) := by
        rw [List.getD_eq_getElem?_getD, List.getElem?_replicate]
        simp [hmlt]
      rw [hrep]
      rw [any_congr_mem t _ _ (fun row hr => ?_)]
      rcases hcv : coversCube row.dropLast m with _ | _
      · apply decide_eq_false
        intro hc
        have := (mem_cube_to_minterms row.dropLast (hrows row hr).2 m).mp hc
        rw [hcv] at this
        exact Bool.false_ne_true this
      · exact decide_eq_true ((mem_cube_to_minterms row.dropLast (hrows row hr).2 m).mpr hcv)

theorem C7_truth_table_to_lut_mask_witness :
    (truth_table_to_lut_mask [[LogicValue.DONT_CARE, LogicValue.TRUE, LogicValue.TRUE]]
      2).isSome = true ∧
    ∀ mask on_set,
      truth_table_to_lut_mask [[LogicValue.DONT_CARE, LogicValue.TRUE, LogicValue.TRUE]] 2 =
        some mask →
      truth_table_encodes_on_set [[LogicValue.DONT_CARE, LogicValue.TRUE, LogicValue.TRUE]] =
        some on_set →
      mask.length = 2 ^ 2 ∧
      ∀ m, m < 2 ^ 2 → mask.getD m LogicValue.UNKOWN =
        if ([[LogicValue.DONT_CARE, LogicValue.TRUE, LogicValue.TRUE]] :
            List (List LogicValue)).any fun row => coversCube row.dropLast m then
          (if on_set then LogicValue.TRUE else LogicValue.FALSE)
        else (if on_set then LogicValue.FALSE else LogicValue.TRUE) :=
  C7_truth_table_to_lut_mask [[LogicValue.DONT_CARE, LogicValue.TRUE, LogicValue.TRUE]] 2
    (by decide) (by decide)

end Vpr
